import Mathlib

/-!
mandelb001: escape-time evaluation, pixel mapping and navigation.

A shallow embedding of `src/fractal02/main.go`.

* `float64` is modelled bit-exactly up to the sign of zero: a value is NaN, an
  infinity, or a finite number carried as an exact rational; every arithmetic
  operation computes the exact result and rounds it to the nearest binary64
  number, ties to even (IEEE 754, the arithmetic Go prescribes for `float64`).
  The two zeros are identified: Go's `==` equates them and no operation used by
  this program (`+`, `-`, `*`, `/` by a nonzero constant, comparison,
  `math.Hypot`) tells them apart.  Every operation is rounded on its own (no
  fused multiply-add), as the Go compiler does on amd64.
  The carrier `F64` holds every rational; `F64.IsFloat64` singles out the
  binary64 numbers, and every rounded result is one (`rnd_isFloat64`).
* `math.Hypot`, `cmplx.Abs`, `color.RGBAModel`, `image.NewRGBA` and
  `(*image.RGBA).Set` follow the Go standard library.
* `uint8` is `Nat` with explicit `% 256`.
* `image.RGBA` is a row-major list of pixels.
* In the escape rule `|v| > 2` means the test the program makes,
  `cmplx.Abs(v) > 2`; `hypot_gt_two` relates it to the exact modulus.
-/

namespace Mandelb001

/-! ## binary64 arithmetic -/

/-- The exact rational `2 ^ e`. -/
def pow2 (e : ℤ) : ℚ :=
  if 0 ≤ e then ((2 ^ e.toNat : ℕ) : ℚ) else 1 / ((2 ^ (-e).toNat : ℕ) : ℚ)

/-- Floor of the binary logarithm, by halving: `log2Fuel fuel n` for `n ≤ fuel`. -/
def log2Fuel : Nat → Nat → Nat
  | 0, _ => 0
  | fuel + 1, n => if n < 2 then 0 else log2Fuel fuel (n / 2) + 1

/-- Floor of the binary logarithm of a natural number (`0` at `0`). -/
def log2 (n : Nat) : Nat := log2Fuel n n

/-- The binade of a nonzero rational: the `b` with `2 ^ b ≤ |q| < 2 ^ (b + 1)`. -/
def binade (q : ℚ) : ℤ :=
  let k : ℤ := (log2 q.num.natAbs : ℤ) - (log2 q.den : ℤ)
  if pow2 k ≤ |q| then k else k - 1

/-- Round a rational to the nearest integer, ties to the even one. -/
def roundHalfEven (x : ℚ) : ℤ :=
  let f : ℤ := ⌊x⌋
  let r : ℚ := x - f
  if r < 1 / 2 then f
  else if 1 / 2 < r then f + 1
  else if f % 2 = 0 then f else f + 1

/-- Values of Go's `float64`. -/
inductive F64 where
  | nan : F64
  | inf (neg : Bool) : F64
  | fin (q : ℚ) : F64
  deriving DecidableEq

/-- Exponent of the unit in the last place used for a number in the binade of
`q`: 53 significant bits, and the fixed spacing `2 ^ (-1074)` in the subnormal
range. -/
def ulpExp (q : ℚ) : ℤ := max (binade q) (-1022) - 52

/-- Round to 53 significant bits (to a multiple of `2 ^ (-1074)` in the
subnormal range) with no bound on the exponent: nearest, ties to even. -/
def rndVal (q : ℚ) : ℚ := (roundHalfEven (q / pow2 (ulpExp q)) : ℚ) * pow2 (ulpExp q)

/-- Round an exact result to binary64: nearest, ties to even, overflow to an
infinity. -/
def rnd (q : ℚ) : F64 :=
  if pow2 1024 ≤ |rndVal q| then F64.inf (decide (q < 0)) else F64.fin (rndVal q)

namespace F64

/-- Conversion `float64(n)` of a non-negative `int`. -/
def ofNat (n : Nat) : F64 := rnd (n : ℚ)

/-- Unary minus. -/
def neg : F64 → F64
  | nan => nan
  | inf s => inf (!s)
  | fin q => fin (-q)

/-- Absolute value, `math.Abs`. -/
def abs : F64 → F64
  | nan => nan
  | inf _ => inf false
  | fin q => fin |q|

/-- Addition `x + y`. -/
def add : F64 → F64 → F64
  | nan, _ => nan
  | _, nan => nan
  | inf s, inf t => if s = t then inf s else nan
  | inf s, fin _ => inf s
  | fin _, inf t => inf t
  | fin a, fin b => rnd (a + b)

/-- Subtraction `x - y`. -/
def sub (x y : F64) : F64 := add x (neg y)

/-- Multiplication `x * y`. -/
def mul : F64 → F64 → F64
  | nan, _ => nan
  | _, nan => nan
  | inf s, inf t => inf (xor s t)
  | inf s, fin b => if b = 0 then nan else inf (xor s (decide (b < 0)))
  | fin a, inf t => if a = 0 then nan else inf (xor (decide (a < 0)) t)
  | fin a, fin b => rnd (a * b)

/-- Division `x / y`.  A zero divisor is taken as `+0`; the program never
divides by zero. -/
def div : F64 → F64 → F64
  | nan, _ => nan
  | _, nan => nan
  | inf _, inf _ => nan
  | inf s, fin b => inf (xor s (decide (b < 0)))
  | fin _, inf _ => fin 0
  | fin a, fin b =>
    if b = 0 then (if a = 0 then nan else inf (decide (a < 0))) else rnd (a / b)

/-- Comparison `x < y`; false when an operand is NaN. -/
def lt : F64 → F64 → Bool
  | nan, _ => false
  | _, nan => false
  | inf s, inf t => s && !t
  | inf s, fin _ => s
  | fin _, inf t => !t
  | fin a, fin b => decide (a < b)

/-- Comparison `x > y`. -/
def gt (x y : F64) : Bool := lt y x

/-- Comparison `x == y`; false when an operand is NaN. -/
def eq : F64 → F64 → Bool
  | nan, _ => false
  | _, nan => false
  | inf s, inf t => s == t
  | inf _, fin _ => false
  | fin _, inf _ => false
  | fin a, fin b => decide (a = b)

/-- Comparison `x <= y`; false when an operand is NaN. -/
def le (x y : F64) : Bool := lt x y || eq x y

end F64

/-- Integer square root by bisection on the bits: `isqrtAux n k r` tries the
bits `k - 1, ..., 0` on top of `r`. -/
def isqrtAux (n : Nat) : Nat → Nat → Nat
  | 0, r => r
  | k + 1, r =>
    let c := r + 2 ^ k
    if c * c ≤ n then isqrtAux n k c else isqrtAux n k r

/-- Floor of the square root of a natural number. -/
def isqrt (n : Nat) : Nat := isqrtAux n (log2 n / 2 + 1) 0

/-- Correctly rounded square root of a positive rational (nearest, ties to
even). -/
def rndSqrt (q : ℚ) : F64 :=
  let e : ℤ := max (binade q / 2) (-1022) - 52
  let t : ℚ := q / pow2 (2 * e)
  let s : ℕ := isqrt ⌊t⌋.toNat
  let mid : ℚ := ((s : ℚ) + 1 / 2) * ((s : ℚ) + 1 / 2)
  let m : ℕ := if t < mid then s else if mid < t then s + 1 else if s % 2 = 0 then s else s + 1
  let r : ℚ := (m : ℚ) * pow2 e
  if pow2 1024 ≤ r then F64.inf false else F64.fin r

namespace F64

/-- Square root, `math.Sqrt`. -/
def sqrt : F64 → F64
  | nan => nan
  | inf s => if s then nan else inf false
  | fin q => if q < 0 then nan else if q = 0 then fin 0 else rndSqrt q

/-- Go's `math.Hypot(p, q)` as in the standard library: after the special cases
for infinities and NaN, `max * Sqrt(1 + (min/max)*(min/max))`. -/
def hypot (p q : F64) : F64 :=
  let p := abs p
  let q := abs q
  if p = inf false ∨ q = inf false then inf false
  else if p = nan ∨ q = nan then nan
  else
    let p1 := if lt p q then q else p
    let q1 := if lt p q then p else q
    if eq p1 (fin 0) then fin 0
    else
      let q2 := div q1 p1
      mul p1 (sqrt (add (fin 1) (mul q2 q2)))

end F64

/-! ## Colours and images (Go's `image/color` and `image`) -/

/-- Go's `color.RGBA`: four `uint8` channels. -/
structure RGBA where
  r : Nat
  g : Nat
  b : Nat
  a : Nat
  deriving DecidableEq

/-- The `color.Color` values this program produces: a `color.RGBA` or a
`color.Gray16` (the type of `color.Black`). -/
inductive Color where
  | rgba (c : RGBA) : Color
  | gray16 (y : Nat) : Color
  deriving DecidableEq

/-- Go's `color.Black`, which is `Gray16{0}`. -/
def Color.Black : Color := Color.gray16 0

/-- Go's `color.RGBAModel.Convert`: an RGBA colour is kept; a `Gray16{y}` has
the 16-bit channels `(y, y, y, 0xffff)`, each shifted down to 8 bits. -/
def rgbaModel : Color → RGBA
  | Color.rgba c => c
  | Color.gray16 y => ⟨y / 256 % 256, y / 256 % 256, y / 256 % 256, 65535 / 256⟩

/-- Go's `image.RGBA` over the rectangle `(0,0)-(w,h)`: the pixels in row-major
order, four bytes each. -/
structure Image where
  w : Nat
  h : Nat
  pix : List RGBA

/-- Go's `image.NewRGBA(image.Rect(0, 0, w, h))`: all bytes zero. -/
def Image.NewRGBA (w h : Nat) : Image := ⟨w, h, List.replicate (w * h) ⟨0, 0, 0, 0⟩⟩

/-- Go's `(*image.RGBA).Set`: outside the rectangle nothing happens; inside, the
colour is converted to RGBA and stored at the pixel's offset. -/
def Image.Set (img : Image) (x y : Nat) (c : Color) : Image :=
  if x < img.w ∧ y < img.h then { img with pix := img.pix.set (y * img.w + x) (rgbaModel c) }
  else img

/-- Go's `(*image.RGBA).RGBAAt`: the stored pixel, or the zero colour outside
the rectangle. -/
def Image.RGBAAt (img : Image) (x y : Nat) : RGBA :=
  if x < img.w ∧ y < img.h then img.pix.getD (y * img.w + x) ⟨0, 0, 0, 0⟩ else ⟨0, 0, 0, 0⟩

/-! ## The program -/

/-- Go's `complex128`. -/
structure Complex128 where
  re : F64
  im : F64
  deriving DecidableEq

namespace Complex128

/-- Complex addition, componentwise. -/
def add (a b : Complex128) : Complex128 := ⟨F64.add a.re b.re, F64.add a.im b.im⟩

/-- Complex multiplication as the Go compiler expands it:
`(a.re*b.re - a.im*b.im) + (a.re*b.im + a.im*b.re)i`. -/
def mul (a b : Complex128) : Complex128 :=
  ⟨F64.sub (F64.mul a.re b.re) (F64.mul a.im b.im),
   F64.add (F64.mul a.re b.im) (F64.mul a.im b.re)⟩

/-- Go's `cmplx.Abs(z)`, which is `math.Hypot(real(z), imag(z))`. -/
def Abs (z : Complex128) : F64 := F64.hypot z.re z.im

end Complex128

/-- Constant `winWidth`. -/
def winWidth : Nat := 940

/-- Constant `winHeight`. -/
def winHeight : Nat := 720

/-- Constant `iterations` of `mandelbrot`. -/
def iterations : Nat := 200

/-- Constant `contrast` of `mandelbrot`. -/
def contrast : Nat := 25

/-- Multiplication of `uint8` values. -/
def u8mul (a b : Nat) : Nat := a * b % 256

/-- Subtraction of `uint8` values. -/
def u8sub (a b : Nat) : Nat := (a + 256 - b % 256) % 256

/-- Increment `n++` of a `uint8`. -/
def u8inc (n : Nat) : Nat := (n + 1) % 256

/-- The loop of `mandelbrot` from counter `n` and orbit value `v`; `fuel` bounds
the remaining number of passes. -/
def mandelbrotLoop (z : Complex128) : Nat → Nat → Complex128 → Color
  | 0, _, _ => Color.Black
  | fuel + 1, n, v =>
    if n < iterations then
      let v1 := Complex128.add (Complex128.mul v v) z
      if F64.gt (Complex128.Abs v1) (F64.fin 2) then
        Color.rgba ⟨0, 0, u8sub 155 (u8mul contrast n), 255⟩
      else mandelbrotLoop z fuel (u8inc n) v1
    else Color.Black

/-- Function `mandelbrot`: the loop from `n = 0`, `v = 0`; the counter only
rises, so `iterations` passes are all the loop can make. -/
def mandelbrot (z : Complex128) : Color :=
  mandelbrotLoop z iterations 0 ⟨F64.fin 0, F64.fin 0⟩

/-- The coordinate expression of `createFractal`:
`float64(p)/size*(max-min) + min`. -/
def mapCoord (p size : Nat) (lo hi : F64) : F64 :=
  F64.add (F64.mul (F64.div (F64.ofNat p) (F64.ofNat size)) (F64.sub hi lo)) lo

/-- The point `z` of `createFractal` for pixel `(px, py)`. -/
def pixelPoint (minX maxX minY maxY : F64) (px py : Nat) : Complex128 :=
  ⟨mapCoord px winWidth minX maxX, mapCoord py winHeight minY maxY⟩

/-- The inner loop of `createFractal`: row `py`, columns `0 .. winWidth - 1`. -/
def fractalRow (minX maxX : F64) (y : F64) (py : Nat) (img : Image) : Image :=
  (List.range winWidth).foldl
    (fun im px => im.Set px py (mandelbrot ⟨mapCoord px winWidth minX maxX, y⟩)) img

/-- Function `createFractal` (the `fmt.Println` of the bounds is not modelled). -/
def createFractal (minX maxX minY maxY : F64) : Image :=
  (List.range winHeight).foldl
    (fun im py => fractalRow minX maxX (mapCoord py winHeight minY maxY) py im)
    (Image.NewRGBA winWidth winHeight)

/-- The navigation variables of the program: `locationX`, `locationY`, `step`,
`deviation`. -/
structure NavState where
  locationX : F64
  locationY : F64
  step : F64
  deviation : F64
  deriving DecidableEq

/-- The initial values of the navigation variables. -/
def NavState.init : NavState := ⟨F64.fin 0, F64.fin 0, F64.fin (1 / 2), F64.fin 2⟩

/-- The key symbols `run` switches on; any other key is `other`. -/
inductive Key where
  | K_UP | K_DOWN | K_LEFT | K_RIGHT | K_RETURN | other
  deriving DecidableEq

/-- The `switch t.Keysym.Sym` of `run`. -/
def keyStep (s : NavState) : Key → NavState
  | Key.K_UP => { s with locationY := F64.sub s.locationY (F64.mul s.step s.deviation) }
  | Key.K_DOWN => { s with locationY := F64.add s.locationY (F64.mul s.step s.deviation) }
  | Key.K_LEFT => { s with locationX := F64.sub s.locationX (F64.mul s.step s.deviation) }
  | Key.K_RIGHT => { s with locationX := F64.add s.locationX (F64.mul s.step s.deviation) }
  | Key.K_RETURN => { s with deviation := F64.mul s.deviation s.step }
  | Key.other => s

/-- The state after a sequence of keyboard events. -/
def runKeys (s : NavState) (ks : List Key) : NavState := ks.foldl keyStep s

/-- The viewport `run` passes to `loadMyFractal`:
`(locationX-deviation, locationX+deviation, locationY-deviation, locationY+deviation)`. -/
structure Viewport where
  minX : F64
  maxX : F64
  minY : F64
  maxY : F64
  deriving DecidableEq

/-- The arguments of the `loadMyFractal` call in `run`. -/
def NavState.viewport (s : NavState) : Viewport :=
  ⟨F64.sub s.locationX s.deviation, F64.add s.locationX s.deviation,
   F64.sub s.locationY s.deviation, F64.add s.locationY s.deviation⟩

/-! ## The spec's vocabulary -/

/-- The orbit of the spec: `v 0 = 0`, `v (k+1) = v k ^ 2 + z`, in the program's
arithmetic. -/
def orbit (z : Complex128) : Nat → Complex128
  | 0 => ⟨F64.fin 0, F64.fin 0⟩
  | k + 1 => Complex128.add (Complex128.mul (orbit z k) (orbit z k)) z

/-- The magnitude test `|v| > 2` as the program evaluates it. -/
def escaped (v : Complex128) : Bool := F64.gt (Complex128.Abs v) (F64.fin 2)



/-- The first pass at which the orbit is seen outside the radius: the least
`n < iterations` with `|v (n+1)| > 2`; `none` is the spec's `Bounded` and
`some n` its `EscapedAt(n)`. -/
def firstEscape (z : Complex128) : Option Nat :=
  (List.range iterations).find? (fun n => escaped (orbit z (n + 1)))

/-- A rational is a finite binary64 number: a significand below `2 ^ 53` times
a power of two between `2 ^ (-1074)` and `2 ^ 971`. -/
def Representable (q : ℚ) : Prop :=
  ∃ m e : ℤ, |m| < 2 ^ 53 ∧ -1074 ≤ e ∧ e ≤ 971 ∧ q = (m : ℚ) * pow2 e

/-- The values of the carrier that are binary64 numbers. -/
def F64.IsFloat64 : F64 → Prop
  | F64.fin q => Representable q
  | _ => True

/-- What every reachable navigation state satisfies: `step` is still `0.5`,
`deviation` is a finite number in `[0, 2]`, and neither coordinate is NaN. -/
def NavInv (s : NavState) : Prop :=
  s.step = F64.fin (1 / 2) ∧ (∃ d : ℚ, s.deviation = F64.fin d ∧ 0 ≤ d ∧ d ≤ 2) ∧
    s.locationX ≠ F64.nan ∧ s.locationY ≠ F64.nan

/-! ## Facts about the rounding -/

theorem pow2_eq (e : ℤ) : pow2 e = (2 : ℚ) ^ e := by
  unfold pow2
  split_ifs with h
  · obtain ⟨n, rfl⟩ : ∃ n : ℕ, e = (n : ℤ) := ⟨e.toNat, by omega⟩
    simp
  · obtain ⟨n, rfl⟩ : ∃ n : ℕ, e = -(n : ℤ) := ⟨(-e).toNat, by omega⟩
    simp [zpow_neg]

theorem pow2_pos (e : ℤ) : 0 < pow2 e := by
  rw [pow2_eq]; positivity

theorem pow2_add (a b : ℤ) : pow2 (a + b) = pow2 a * pow2 b := by
  simp only [pow2_eq]; exact zpow_add₀ (by norm_num) a b

theorem pow2_le_pow2 {a b : ℤ} (h : a ≤ b) : pow2 a ≤ pow2 b := by
  simp only [pow2_eq]; exact zpow_le_zpow_right₀ (by norm_num) h

theorem pow2_lt_pow2_iff {a b : ℤ} : pow2 a < pow2 b ↔ a < b := by
  simp only [pow2_eq]; exact zpow_lt_zpow_iff_right₀ (by norm_num)

theorem pow2_nonneg_eq_intCast (k : ℤ) (hk : 0 ≤ k) : pow2 k = ((2 ^ k.toNat : ℤ) : ℚ) := by
  unfold pow2
  rw [if_pos hk]
  push_cast
  rfl

theorem two_lt_pow2_1024 : (2 : ℚ) < pow2 1024 :=
  calc (2 : ℚ) = pow2 1 := by simp [pow2]
    _ < pow2 1024 := pow2_lt_pow2_iff.mpr (by norm_num)

theorem pow2_1024_eq : pow2 1024 = 2 ^ 53 * pow2 971 := by
  have h : (1024 : ℤ) = 53 + 971 := by norm_num
  have h53 : pow2 53 = 2 ^ 53 := by rw [pow2_eq]; norm_num
  rw [h, pow2_add, h53]

theorem pow2_neg1075_le : pow2 (-1075) ≤ pow2 971 / 2 ^ 60 := by
  rw [le_div_iff₀ (by positivity)]
  have h60 : (2 : ℚ) ^ 60 = pow2 60 := by rw [pow2_eq]; norm_num
  rw [h60, ← pow2_add]
  exact pow2_le_pow2 (by norm_num)

theorem pow2_neg1072 : pow2 (-1072) = 8 * pow2 (-1075) := by
  have : (-1072 : ℤ) = 3 + (-1075) := by norm_num
  rw [this, pow2_add]
  have h3 : pow2 3 = 8 := by simp [pow2]
  rw [h3]

theorem log2Fuel_eq (fuel n : Nat) (h : n ≤ fuel) : log2Fuel fuel n = Nat.log 2 n := by
  induction fuel generalizing n with
  | zero =>
    have : n = 0 := by omega
    subst this; simp [log2Fuel]
  | succ f ih =>
    simp only [log2Fuel]
    split_ifs with h2
    · exact (Nat.log_of_lt h2).symm
    · have h3 : 0 < Nat.log 2 n := Nat.log_pos (by norm_num) (by omega)
      rw [ih (n / 2) (by omega), Nat.log_div_base]
      omega

theorem log2_eq (n : Nat) : log2 n = Nat.log 2 n := log2Fuel_eq n n le_rfl

theorem log2_spec (n : Nat) (h : n ≠ 0) : 2 ^ log2 n ≤ n ∧ n < 2 ^ (log2 n + 1) := by
  rw [log2_eq]
  exact ⟨Nat.pow_log_le_self 2 h, Nat.lt_pow_succ_log_self (by norm_num) n⟩

theorem binade_spec (q : ℚ) (hq : q ≠ 0) :
    pow2 (binade q) ≤ |q| ∧ |q| < pow2 (binade q + 1) := by
  have hn0 : q.num.natAbs ≠ 0 := by
    simpa [Int.natAbs_eq_zero] using hq
  have hd0 : q.den ≠ 0 := q.den_nz
  obtain ⟨hn1, hn2⟩ := log2_spec _ hn0
  obtain ⟨hd1, hd2⟩ := log2_spec _ hd0
  set a := log2 q.num.natAbs with ha
  set b := log2 q.den with hb
  have habs : |q| = (q.num.natAbs : ℚ) / (q.den : ℚ) := by
    have h1 : |q| = |(q.num : ℚ)| / |(q.den : ℚ)| := by
      conv_lhs => rw [← Rat.num_div_den q]
      rw [abs_div]
    rw [h1, Nat.abs_cast, Nat.cast_natAbs, Int.cast_abs]
  have hdpos : (0 : ℚ) < (q.den : ℚ) := by exact_mod_cast Nat.pos_of_ne_zero hd0
  have hn1' : (2 : ℚ) ^ (a : ℤ) ≤ (q.num.natAbs : ℚ) := by
    rw [zpow_natCast]; exact_mod_cast hn1
  have hn2' : (q.num.natAbs : ℚ) < (2 : ℚ) ^ ((a : ℤ) + 1) := by
    have : ((a : ℤ) + 1) = ((a + 1 : ℕ) : ℤ) := by push_cast; ring
    rw [this, zpow_natCast]; exact_mod_cast hn2
  have hd1' : (2 : ℚ) ^ (b : ℤ) ≤ (q.den : ℚ) := by
    rw [zpow_natCast]; exact_mod_cast hd1
  have hd2' : (q.den : ℚ) < (2 : ℚ) ^ ((b : ℤ) + 1) := by
    have : ((b : ℤ) + 1) = ((b + 1 : ℕ) : ℤ) := by push_cast; ring
    rw [this, zpow_natCast]; exact_mod_cast hd2
  have two_ne : (2 : ℚ) ≠ 0 := by norm_num
  -- upper bound `|q| < 2 ^ (a - b + 1)` and lower bound `2 ^ (a - b - 1) < |q|`
  have hup : |q| < pow2 ((a : ℤ) - b + 1) := by
    rw [habs, pow2_eq, div_lt_iff₀ hdpos]
    calc (q.num.natAbs : ℚ) < (2 : ℚ) ^ ((a : ℤ) + 1) := hn2'
      _ = (2 : ℚ) ^ ((a : ℤ) - b + 1) * (2 : ℚ) ^ (b : ℤ) := by
          rw [← zpow_add₀ two_ne]; congr 1; ring
      _ ≤ (2 : ℚ) ^ ((a : ℤ) - b + 1) * (q.den : ℚ) :=
          mul_le_mul_of_nonneg_left hd1' (by positivity)
  have hlow : pow2 ((a : ℤ) - b - 1) ≤ |q| := by
    rw [habs, pow2_eq, le_div_iff₀ hdpos]
    calc (2 : ℚ) ^ ((a : ℤ) - b - 1) * (q.den : ℚ)
        ≤ (2 : ℚ) ^ ((a : ℤ) - b - 1) * (2 : ℚ) ^ ((b : ℤ) + 1) :=
          mul_le_mul_of_nonneg_left hd2'.le (by positivity)
      _ = (2 : ℚ) ^ (a : ℤ) := by
          rw [← zpow_add₀ two_ne]; congr 1; ring
      _ ≤ (q.num.natAbs : ℚ) := hn1'
  unfold binade
  simp only [← ha, ← hb]
  split_ifs with h
  · exact ⟨h, hup⟩
  · refine ⟨hlow, ?_⟩
    have : (a : ℤ) - b - 1 + 1 = (a : ℤ) - b := by ring
    rw [this]
    exact lt_of_not_le h

theorem binade_unique (q : ℚ) (b : ℤ) (h1 : pow2 b ≤ |q|) (h2 : |q| < pow2 (b + 1)) :
    binade q = b := by
  have hq : q ≠ 0 := by
    intro h0; rw [h0, abs_zero] at h1
    exact absurd h1 (not_le.mpr (pow2_pos b))
  obtain ⟨h3, h4⟩ := binade_spec q hq
  have h5 : b < binade q + 1 := pow2_lt_pow2_iff.mp (lt_of_le_of_lt h1 h4)
  have h6 : binade q < b + 1 := pow2_lt_pow2_iff.mp (lt_of_le_of_lt h3 h2)
  omega

theorem binade_neg (q : ℚ) : binade (-q) = binade q := by
  unfold binade
  simp

theorem binade_mono {p q : ℚ} (hp : p ≠ 0) (h : |p| ≤ |q|) : binade p ≤ binade q := by
  have hq : q ≠ 0 := by
    intro h0; rw [h0, abs_zero] at h
    exact hp (abs_eq_zero.mp (le_antisymm h (abs_nonneg p)))
  obtain ⟨h1, _⟩ := binade_spec p hp
  obtain ⟨_, h4⟩ := binade_spec q hq
  have : binade p < binade q + 1 := pow2_lt_pow2_iff.mp (lt_of_le_of_lt (h1.trans h) h4)
  omega

theorem binade_le_ulpExp (q : ℚ) : binade q ≤ ulpExp q + 52 := by
  unfold ulpExp; omega

theorem roundHalfEven_intCast (n : ℤ) : roundHalfEven (n : ℚ) = n := by
  unfold roundHalfEven
  simp

theorem roundHalfEven_cases (x : ℚ) :
    (roundHalfEven x = ⌊x⌋ ∧ x - ⌊x⌋ ≤ 1 / 2 ∧ (x - ⌊x⌋ = 1 / 2 → ⌊x⌋ % 2 = 0)) ∨
    (roundHalfEven x = ⌊x⌋ + 1 ∧ 1 / 2 ≤ x - ⌊x⌋ ∧ (x - ⌊x⌋ = 1 / 2 → ⌊x⌋ % 2 ≠ 0)) := by
  unfold roundHalfEven
  simp only
  split_ifs with h1 h2 h3
  · left; exact ⟨rfl, h1.le, fun h => absurd h (ne_of_lt h1)⟩
  · right; exact ⟨rfl, h2.le, fun h => absurd h.symm (ne_of_lt h2)⟩
  · left; exact ⟨rfl, not_lt.mp h2, fun _ => h3⟩
  · right; exact ⟨rfl, not_lt.mp h1, fun _ => h3⟩

theorem roundHalfEven_mono {x y : ℚ} (h : x ≤ y) : roundHalfEven x ≤ roundHalfEven y := by
  have hf : ⌊x⌋ ≤ ⌊y⌋ := Int.floor_mono h
  rcases lt_or_eq_of_le hf with hlt | heq
  · rcases roundHalfEven_cases x with ⟨hx, _, _⟩ | ⟨hx, _, _⟩ <;>
    rcases roundHalfEven_cases y with ⟨hy, _, _⟩ | ⟨hy, _, _⟩ <;> omega
  · rcases roundHalfEven_cases x with ⟨hx, _, _⟩ | ⟨hx, hx1, hx2⟩ <;>
    rcases roundHalfEven_cases y with ⟨hy, hy1, hy2⟩ | ⟨hy, _, _⟩
    · omega
    · omega
    · exfalso
      rw [← heq] at hy1 hy2
      have h1 : x - ⌊x⌋ = 1 / 2 := by linarith
      have h2 : y - ⌊x⌋ = 1 / 2 := by linarith
      exact hx2 h1 (hy2 h2)
    · omega

theorem roundHalfEven_sub_le (x : ℚ) : |(roundHalfEven x : ℚ) - x| ≤ 1 / 2 := by
  have h1 := Int.floor_le x
  have h2 := Int.lt_floor_add_one x
  rw [abs_le]
  rcases roundHalfEven_cases x with ⟨hx, hx1, _⟩ | ⟨hx, hx1, _⟩
  · rw [hx]; constructor <;> linarith
  · rw [hx]; push_cast; constructor <;> linarith

theorem roundHalfEven_neg (x : ℚ) : roundHalfEven (-x) = -roundHalfEven x := by
  by_cases hx : (⌊x⌋ : ℚ) = x
  · rw [← hx, ← Int.cast_neg, roundHalfEven_intCast, roundHalfEven_intCast]
  · have hlt : (⌊x⌋ : ℚ) < x := lt_of_le_of_ne (Int.floor_le x) hx
    have hfl : ⌊-x⌋ = -⌊x⌋ - 1 := by
      rw [Int.floor_eq_iff]
      have := Int.lt_floor_add_one x
      push_cast
      constructor <;> linarith
    rcases roundHalfEven_cases x with ⟨h, h1, h2⟩ | ⟨h, h1, h2⟩ <;>
    rcases roundHalfEven_cases (-x) with ⟨k, k1, k2⟩ | ⟨k, k1, k2⟩
    · exfalso
      rw [hfl] at k1 k2
      push_cast at k1 k2
      have e1 : x - ⌊x⌋ = 1 / 2 := by linarith
      have := h2 e1
      have := k2 (by linarith)
      omega
    · rw [k, h, hfl]; ring
    · rw [k, h, hfl]; ring
    · exfalso
      rw [hfl] at k1 k2
      push_cast at k1 k2
      have e1 : x - ⌊x⌋ = 1 / 2 := by linarith
      have := h2 e1
      have := k2 (by linarith)
      omega

theorem roundHalfEven_nonneg {x : ℚ} (h : 0 ≤ x) : 0 ≤ roundHalfEven x := by
  have := roundHalfEven_mono h
  rwa [show (0 : ℚ) = ((0 : ℤ) : ℚ) by simp, roundHalfEven_intCast] at this

theorem rne_scaled_le (x : ℚ) (e k : ℤ) (hk : 0 ≤ k) (h : x ≤ pow2 (e + k)) :
    (roundHalfEven (x / pow2 e) : ℚ) * pow2 e ≤ pow2 (e + k) := by
  have he := pow2_pos e
  have h1 : x / pow2 e ≤ ((2 ^ k.toNat : ℤ) : ℚ) := by
    rw [← pow2_nonneg_eq_intCast k hk, div_le_iff₀ he, ← pow2_add, add_comm]
    exact h
  have h2 := roundHalfEven_mono h1
  rw [roundHalfEven_intCast] at h2
  have h3 : (roundHalfEven (x / pow2 e) : ℚ) ≤ pow2 k := by
    rw [pow2_nonneg_eq_intCast k hk]; exact_mod_cast h2
  calc (roundHalfEven (x / pow2 e) : ℚ) * pow2 e ≤ pow2 k * pow2 e :=
        mul_le_mul_of_nonneg_right h3 he.le
    _ = pow2 (e + k) := by rw [← pow2_add, add_comm]

theorem le_rne_scaled (x : ℚ) (e k : ℤ) (hk : 0 ≤ k) (h : pow2 (e + k) ≤ x) :
    pow2 (e + k) ≤ (roundHalfEven (x / pow2 e) : ℚ) * pow2 e := by
  have he := pow2_pos e
  have h1 : ((2 ^ k.toNat : ℤ) : ℚ) ≤ x / pow2 e := by
    rw [← pow2_nonneg_eq_intCast k hk, le_div_iff₀ he, ← pow2_add, add_comm]
    exact h
  have h2 := roundHalfEven_mono h1
  rw [roundHalfEven_intCast] at h2
  have h3 : pow2 k ≤ (roundHalfEven (x / pow2 e) : ℚ) := by
    rw [pow2_nonneg_eq_intCast k hk]; exact_mod_cast h2
  calc pow2 (e + k) = pow2 k * pow2 e := by rw [← pow2_add, add_comm]
    _ ≤ (roundHalfEven (x / pow2 e) : ℚ) * pow2 e :=
        mul_le_mul_of_nonneg_right h3 he.le

theorem ulpExp_neg (q : ℚ) : ulpExp (-q) = ulpExp q := by
  unfold ulpExp; rw [binade_neg]

theorem rndVal_neg (q : ℚ) : rndVal (-q) = -rndVal q := by
  unfold rndVal
  rw [ulpExp_neg, neg_div, roundHalfEven_neg]
  push_cast; ring

theorem rndVal_zero : rndVal 0 = 0 := by
  unfold rndVal
  rw [zero_div, show (0 : ℚ) = ((0 : ℤ) : ℚ) by simp, roundHalfEven_intCast]
  simp

theorem rndVal_nonneg {q : ℚ} (h : 0 ≤ q) : 0 ≤ rndVal q := by
  unfold rndVal
  have h1 : 0 ≤ q / pow2 (ulpExp q) := div_nonneg h (pow2_pos _).le
  have h2 := roundHalfEven_nonneg h1
  have h3 : (0 : ℚ) ≤ (roundHalfEven (q / pow2 (ulpExp q)) : ℚ) := by exact_mod_cast h2
  exact mul_nonneg h3 (pow2_pos _).le

theorem rndVal_mono_pos {p q : ℚ} (hp : 0 < p) (h : p ≤ q) : rndVal p ≤ rndVal q := by
  have hq : 0 < q := lt_of_lt_of_le hp h
  have hb : binade p ≤ binade q :=
    binade_mono hp.ne' (by rwa [abs_of_pos hp, abs_of_pos hq])
  have he : ulpExp p ≤ ulpExp q := by unfold ulpExp; omega
  rcases lt_or_eq_of_le he with hlt | heq
  · -- different grids: a power of two separates the two results
    obtain ⟨_, hp2⟩ := binade_spec p hp.ne'
    obtain ⟨hq1, _⟩ := binade_spec q hq.ne'
    rw [abs_of_pos hp] at hp2
    rw [abs_of_pos hq] at hq1
    have hbq : binade q = ulpExp q + 52 := by
      unfold ulpExp at hlt ⊢; omega
    have h1 : rndVal p ≤ pow2 (ulpExp p + 53) := by
      apply rne_scaled_le _ _ _ (by norm_num)
      exact hp2.le.trans (pow2_le_pow2 (by have := binade_le_ulpExp p; omega))
    have h2 : pow2 (ulpExp q + 52) ≤ rndVal q := by
      apply le_rne_scaled _ _ _ (by norm_num)
      rw [← hbq]; exact hq1
    exact h1.trans ((pow2_le_pow2 (by omega)).trans h2)
  · unfold rndVal
    rw [heq]
    have h1 : p / pow2 (ulpExp q) ≤ q / pow2 (ulpExp q) :=
      div_le_div_of_nonneg_right h (pow2_pos _).le
    have h2 := roundHalfEven_mono h1
    have h3 : (roundHalfEven (p / pow2 (ulpExp q)) : ℚ) ≤ (roundHalfEven (q / pow2 (ulpExp q)) : ℚ) := by
      exact_mod_cast h2
    exact mul_le_mul_of_nonneg_right h3 (pow2_pos _).le

theorem rndVal_mono {p q : ℚ} (h : p ≤ q) : rndVal p ≤ rndVal q := by
  rcases lt_trichotomy p 0 with hp | hp | hp
  · rcases lt_or_le q 0 with hq | hq
    · have h1 : rndVal (-q) ≤ rndVal (-p) := rndVal_mono_pos (by linarith) (by linarith)
      rw [rndVal_neg, rndVal_neg] at h1
      linarith
    · have h1 : 0 ≤ rndVal (-p) := rndVal_nonneg (by linarith)
      rw [rndVal_neg] at h1
      have h2 := rndVal_nonneg hq
      linarith
  · rw [hp, rndVal_zero]; exact rndVal_nonneg (by linarith)
  · exact rndVal_mono_pos hp h

theorem rndVal_nonpos {q : ℚ} (h : q ≤ 0) : rndVal q ≤ 0 := by
  have := rndVal_mono h
  rwa [rndVal_zero] at this

theorem rndVal_err (q : ℚ) : |rndVal q - q| ≤ |q| / 2 ^ 53 + pow2 (-1075) := by
  by_cases hq : q = 0
  · subst hq
    rw [rndVal_zero]
    simp only [sub_self, abs_zero, zero_div, zero_add]
    exact (pow2_pos _).le
  set E := ulpExp q with hE
  have hEpos := pow2_pos E
  have h1 := roundHalfEven_sub_le (q / pow2 E)
  have h2 : rndVal q - q = ((roundHalfEven (q / pow2 E) : ℚ) - q / pow2 E) * pow2 E := by
    unfold rndVal
    rw [← hE]
    field_simp
  have h3 : |rndVal q - q| ≤ 1 / 2 * pow2 E := by
    rw [h2, abs_mul, abs_of_pos hEpos]
    exact mul_le_mul_of_nonneg_right h1 hEpos.le
  have h4 : (1 / 2 : ℚ) * pow2 E = pow2 (E - 1) := by
    have : pow2 E = pow2 (E - 1) * pow2 1 := by rw [← pow2_add]; congr 1; ring
    rw [this]
    have h21 : pow2 1 = 2 := by simp [pow2]
    rw [h21]; ring
  rw [h4] at h3
  obtain ⟨hb1, _⟩ := binade_spec q hq
  by_cases hb : -1022 ≤ binade q
  · have hE1 : E - 1 = binade q + (-53) := by rw [hE]; unfold ulpExp; omega
    have h5 : pow2 (E - 1) ≤ |q| / 2 ^ 53 := by
      rw [hE1, pow2_add, le_div_iff₀ (by positivity)]
      have h53 : pow2 (-53) * 2 ^ 53 = 1 := by
        rw [pow2_eq]
        norm_num
      calc pow2 (binade q) * pow2 (-53) * 2 ^ 53 = pow2 (binade q) * (pow2 (-53) * 2 ^ 53) := by ring
        _ = pow2 (binade q) := by rw [h53, mul_one]
        _ ≤ |q| := hb1
    have := (pow2_pos (-1075)).le
    linarith
  · have hE1 : E - 1 = -1075 := by rw [hE]; unfold ulpExp; omega
    rw [hE1] at h3
    have : 0 ≤ |q| / 2 ^ 53 := by positivity
    linarith

/-! ## float64 numbers and the rounded operations -/

theorem representable_pow2 (e : ℤ) (h1 : -1074 ≤ e) (h2 : e ≤ 971) : Representable (pow2 e) :=
  ⟨1, e, by norm_num, h1, h2, by simp⟩

theorem representable_two : Representable 2 :=
  ⟨1, 1, by norm_num, by norm_num, by norm_num, by simp [pow2]⟩

theorem representable_int (m : ℤ) (h : |m| < 2 ^ 53) : Representable (m : ℚ) :=
  ⟨m, 0, h, by norm_num, by norm_num, by simp [pow2]⟩

theorem representable_neg {q : ℚ} (h : Representable q) : Representable (-q) := by
  obtain ⟨m, e, hm, h1, h2, rfl⟩ := h
  exact ⟨-m, e, by rwa [abs_neg], h1, h2, by push_cast; ring⟩

theorem rndVal_of_representable {q : ℚ} (h : Representable q) : rndVal q = q := by
  obtain ⟨m, e, hm, he1, _, rfl⟩ := h
  by_cases hm0 : m = 0
  · subst hm0; simp [rndVal_zero]
  have hq0 : (m : ℚ) * pow2 e ≠ 0 :=
    mul_ne_zero (by exact_mod_cast hm0) (pow2_pos e).ne'
  obtain ⟨hb1, _⟩ := binade_spec _ hq0
  have habs : |(m : ℚ) * pow2 e| < pow2 (e + 53) := by
    rw [abs_mul, abs_of_pos (pow2_pos e), pow2_add, mul_comm (pow2 e)]
    apply mul_lt_mul_of_pos_right _ (pow2_pos e)
    rw [pow2_nonneg_eq_intCast 53 (by norm_num), ← Int.cast_abs]
    exact_mod_cast hm
  have hb : binade ((m : ℚ) * pow2 e) < e + 53 :=
    pow2_lt_pow2_iff.mp (lt_of_le_of_lt hb1 habs)
  have hE : ulpExp ((m : ℚ) * pow2 e) ≤ e := by unfold ulpExp; omega
  unfold rndVal
  set E := ulpExp ((m : ℚ) * pow2 e) with hEdef
  have hsplit : pow2 e = pow2 (e - E) * pow2 E := by rw [← pow2_add]; congr 1; ring
  have hdiv : (m : ℚ) * pow2 e / pow2 E = ((m * 2 ^ (e - E).toNat : ℤ) : ℚ) := by
    rw [hsplit, ← mul_assoc, mul_div_assoc, div_self (pow2_pos E).ne', mul_one,
      pow2_nonneg_eq_intCast (e - E) (by omega)]
    push_cast; ring
  rw [hdiv, roundHalfEven_intCast, ← hdiv]
  field_simp [(pow2_pos E).ne']

theorem abs_lt_of_representable {q : ℚ} (h : Representable q) : |q| < pow2 1024 := by
  obtain ⟨m, e, hm, _, he2, rfl⟩ := h
  rw [abs_mul, abs_of_pos (pow2_pos e)]
  have h1 : |(m : ℚ)| < pow2 53 := by
    rw [pow2_nonneg_eq_intCast 53 (by norm_num), ← Int.cast_abs]
    exact_mod_cast hm
  calc |(m : ℚ)| * pow2 e < pow2 53 * pow2 e :=
        mul_lt_mul_of_pos_right h1 (pow2_pos e)
    _ = pow2 (53 + e) := by rw [pow2_add]
    _ ≤ pow2 1024 := pow2_le_pow2 (by omega)

theorem abs_le_of_representable {q : ℚ} (h : Representable q) :
    |q| ≤ (2 ^ 53 - 1) * pow2 971 := by
  obtain ⟨m, e, hm, _, he2, rfl⟩ := h
  rw [abs_mul, abs_of_pos (pow2_pos e)]
  have h1 : |(m : ℚ)| ≤ 2 ^ 53 - 1 := by
    have : |m| ≤ 2 ^ 53 - 1 := by omega
    rw [← Int.cast_abs]
    exact_mod_cast this
  calc |(m : ℚ)| * pow2 e ≤ (2 ^ 53 - 1) * pow2 e :=
        mul_le_mul_of_nonneg_right h1 (pow2_pos e).le
    _ ≤ (2 ^ 53 - 1) * pow2 971 :=
        mul_le_mul_of_nonneg_left (pow2_le_pow2 he2) (by norm_num)

theorem rndVal_representable_pos {q : ℚ} (hq : 0 < q) (h : rndVal q < pow2 1024) :
    Representable (rndVal q) := by
  obtain ⟨hb1, hb2⟩ := binade_spec q hq.ne'
  rw [abs_of_pos hq] at hb1 hb2
  have hE : -1074 ≤ ulpExp q := by unfold ulpExp; omega
  have hbE := binade_le_ulpExp q
  have hup : rndVal q ≤ pow2 (ulpExp q + 53) :=
    rne_scaled_le q (ulpExp q) 53 (by norm_num) (hb2.le.trans (pow2_le_pow2 (by omega)))
  have hm0 : 0 ≤ roundHalfEven (q / pow2 (ulpExp q)) :=
    roundHalfEven_nonneg (div_nonneg hq.le (pow2_pos _).le)
  have h53 : pow2 53 = ((2 ^ 53 : ℤ) : ℚ) := by
    rw [pow2_eq]; norm_num
  have hm53 : roundHalfEven (q / pow2 (ulpExp q)) ≤ 2 ^ 53 := by
    have h1 : (roundHalfEven (q / pow2 (ulpExp q)) : ℚ) * pow2 (ulpExp q)
        ≤ pow2 53 * pow2 (ulpExp q) := by
      rw [← pow2_add, add_comm]; exact hup
    have h2 := le_of_mul_le_mul_right h1 (pow2_pos _)
    rw [h53] at h2
    exact_mod_cast h2
  -- the exponent is in range unless the result overflows
  have hElt : ulpExp q + 53 ≤ 1024 := by
    by_contra hc
    push_neg at hc
    have hb : binade q = ulpExp q + 52 := by unfold ulpExp at hc ⊢; omega
    have h1 : pow2 (ulpExp q + 52) ≤ rndVal q := by
      apply le_rne_scaled _ _ _ (by norm_num)
      rw [← hb]; exact hb1
    have h2 : pow2 1024 ≤ pow2 (ulpExp q + 52) := pow2_le_pow2 (by omega)
    linarith
  rcases lt_or_eq_of_le hm53 with hlt | heq
  · exact ⟨roundHalfEven (q / pow2 (ulpExp q)), ulpExp q,
      by rw [abs_of_nonneg hm0]; exact hlt, hE, by omega, rfl⟩
  · have hval : rndVal q = pow2 (ulpExp q + 53) := by
      unfold rndVal
      rw [heq, ← h53, ← pow2_add, add_comm]
    have hlt : ulpExp q + 53 < 1024 := by
      rw [hval] at h
      exact pow2_lt_pow2_iff.mp h
    refine ⟨2 ^ 52, ulpExp q + 1, by norm_num, by omega, by omega, ?_⟩
    rw [hval]
    have h52 : ((2 ^ 52 : ℤ) : ℚ) = pow2 52 := by
      rw [pow2_eq]; norm_num
    rw [h52, ← pow2_add]
    congr 1; ring

theorem rndVal_representable {q : ℚ} (h : |rndVal q| < pow2 1024) :
    Representable (rndVal q) := by
  rcases lt_trichotomy q 0 with hq | hq | hq
  · have h1 : rndVal (-q) < pow2 1024 := by
      rw [rndVal_neg]
      exact lt_of_le_of_lt (neg_le_abs _) h
    have := representable_neg (rndVal_representable_pos (by linarith) h1)
    rwa [rndVal_neg, neg_neg] at this
  · subst hq
    rw [rndVal_zero]
    exact ⟨0, 0, by norm_num, by norm_num, by norm_num, by simp⟩
  · exact rndVal_representable_pos hq (lt_of_le_of_lt (le_abs_self _) h)

theorem rnd_eq_fin {q : ℚ} (h : |rndVal q| < pow2 1024) : rnd q = F64.fin (rndVal q) := by
  unfold rnd
  rw [if_neg (not_le.mpr h)]

theorem rnd_fin_inv {q v : ℚ} (h : rnd q = F64.fin v) : v = rndVal q ∧ |rndVal q| < pow2 1024 := by
  unfold rnd at h
  split_ifs at h with h1
  exact ⟨(F64.fin.inj h).symm, not_le.mp h1⟩

theorem rnd_of_representable {q : ℚ} (h : Representable q) : rnd q = F64.fin q := by
  unfold rnd
  rw [rndVal_of_representable h, if_neg (not_le.mpr (abs_lt_of_representable h))]

theorem rnd_zero : rnd 0 = F64.fin 0 :=
  rnd_of_representable ⟨0, 0, by norm_num, by norm_num, by norm_num, by simp⟩

/-- Every rounded result is a float64 value. -/
theorem rnd_isFloat64 (q : ℚ) : (rnd q).IsFloat64 := by
  unfold rnd
  split_ifs with h
  · trivial
  · exact rndVal_representable (not_le.mp h)

theorem rnd_ne_nan (q : ℚ) : rnd q ≠ F64.nan := by
  unfold rnd
  split_ifs <;> simp

theorem rnd_le_rnd {p q : ℚ} (h : p ≤ q) : F64.le (rnd p) (rnd q) = true := by
  have hm := rndVal_mono h
  unfold rnd
  by_cases hA : pow2 1024 ≤ |rndVal p| <;> by_cases hB : pow2 1024 ≤ |rndVal q|
  · rw [if_pos hA, if_pos hB]
    by_cases hp : p < 0
    · by_cases hq : q < 0 <;> simp [F64.le, F64.lt, F64.eq, hp, hq]
    · have hq : ¬ q < 0 := by push_neg at hp ⊢; linarith
      simp [F64.le, F64.lt, F64.eq, hp, hq]
  · rw [if_pos hA, if_neg hB]
    have hp : p < 0 := by
      by_contra hp
      push_neg at hp
      have h0 := rndVal_nonneg hp
      rw [abs_of_nonneg h0] at hA
      exact hB (hA.trans (hm.trans (le_abs_self _)))
    simp [F64.le, F64.lt, hp]
  · rw [if_neg hA, if_pos hB]
    have hq : ¬ q < 0 := by
      intro hq
      have h0 := rndVal_nonpos hq.le
      rw [abs_of_nonpos h0] at hB
      apply hA
      have : rndVal p ≤ 0 := hm.trans h0
      rw [abs_of_nonpos this]
      linarith
    simp [F64.le, F64.lt, hq]
  · rw [if_neg hA, if_neg hB]
    simp only [F64.le, F64.lt, F64.eq, Bool.or_eq_true, decide_eq_true_eq]
    exact lt_or_eq_of_le hm

/-- A result between two float64 numbers does not overflow and rounds to a
value between them. -/
theorem rnd_between {q lo hi : ℚ} (hlo : Representable lo) (hhi : Representable hi)
    (h1 : lo ≤ q) (h2 : q ≤ hi) :
    rnd q = F64.fin (rndVal q) ∧ lo ≤ rndVal q ∧ rndVal q ≤ hi := by
  have a1 : lo ≤ rndVal q := by
    have := rndVal_mono h1
    rwa [rndVal_of_representable hlo] at this
  have a2 : rndVal q ≤ hi := by
    have := rndVal_mono h2
    rwa [rndVal_of_representable hhi] at this
  refine ⟨rnd_eq_fin ?_, a1, a2⟩
  have b1 := abs_lt.mp (abs_lt_of_representable hlo)
  have b2 := abs_lt.mp (abs_lt_of_representable hhi)
  rw [abs_lt]
  constructor <;> linarith

theorem rnd_small {q : ℚ} (h0 : 0 ≤ q) (h2 : q ≤ 2) :
    ∃ t : ℚ, rnd q = F64.fin t ∧ 0 ≤ t ∧ t ≤ 2 := by
  have ha := rndVal_nonneg h0
  have hb : rndVal q ≤ 2 := by
    have := rndVal_mono h2
    rwa [rndVal_of_representable representable_two] at this
  refine ⟨rndVal q, ?_, ha, hb⟩
  unfold rnd
  rw [if_neg]
  rw [abs_of_nonneg ha]
  exact not_le.mpr (lt_of_le_of_lt hb two_lt_pow2_1024)

theorem rnd_half_min_subnormal : rnd (pow2 (-1075)) = F64.fin 0 := by decide!

theorem ofNat_small (n : ℕ) (h : n < 2 ^ 53) : F64.ofNat n = F64.fin n := by
  unfold F64.ofNat
  apply rnd_of_representable
  refine ⟨n, 0, ?_, by norm_num, by norm_num, by simp [pow2]⟩
  rw [abs_of_nonneg (by positivity)]
  exact_mod_cast h

theorem add_zero_of_isFloat64 (x : F64) (h : x.IsFloat64) : F64.add (F64.fin 0) x = x := by
  cases x with
  | nan => rfl
  | inf s => rfl
  | fin q =>
    simp only [F64.add, zero_add]
    exact rnd_of_representable h

theorem add_fin_ne_nan {x : F64} (t : ℚ) (h : x ≠ F64.nan) : F64.add x (F64.fin t) ≠ F64.nan := by
  cases x with
  | nan => exact absurd rfl h
  | inf s => simp [F64.add]
  | fin q => simpa [F64.add] using rnd_ne_nan (q + t)

theorem sub_fin_ne_nan {x : F64} (t : ℚ) (h : x ≠ F64.nan) : F64.sub x (F64.fin t) ≠ F64.nan := by
  unfold F64.sub F64.neg
  exact add_fin_ne_nan (-t) h

theorem le_sub_add {x : F64} {d : ℚ} (hx : x ≠ F64.nan) (hd : 0 ≤ d) :
    F64.le (F64.sub x (F64.fin d)) (F64.add x (F64.fin d)) = true := by
  cases x with
  | nan => exact absurd rfl hx
  | inf s => cases s <;> simp [F64.sub, F64.neg, F64.add, F64.le, F64.lt, F64.eq]
  | fin q =>
    simp only [F64.sub, F64.neg, F64.add]
    exact rnd_le_rnd (by linarith)

/-- The model on known binary64 values: `0.1`, `1/3`, `sqrt 2`, the largest
finite number plus half an ulp (overflow), and `float64(2^53 + 1)`. -/
theorem rnd_known_values :
    rnd (1 / 10) = F64.fin (3602879701896397 / 36028797018963968) ∧
    rnd (1 / 3) = F64.fin (6004799503160661 / 18014398509481984) ∧
    F64.sqrt (F64.fin 2) = F64.fin (6369051672525773 / 4503599627370496) ∧
    rnd (pow2 1024 - pow2 970) = F64.inf false ∧
    rnd (pow2 1024 - pow2 970 - pow2 900) = F64.fin (pow2 1024 - pow2 971) ∧
    F64.ofNat (2 ^ 53 + 1) = F64.fin (2 ^ 53) ∧
    F64.hypot (F64.fin 3) (F64.fin 4) = F64.fin 5 := by
  decide!

/-! ## The escape-time loop -/

/-- The colour the loop returns when it stops at counter `n`. -/
theorem u8_blue (n : Nat) :
    u8sub 155 (u8mul contrast n) = ((155 - 25 * (n : ℤ)) % 256).toNat := by
  unfold u8sub u8mul contrast
  omega

theorem mandelbrotLoop_eq (z : Complex128) (fuel n : Nat) (h : n + fuel = iterations) :
    mandelbrotLoop z fuel n (orbit z n) =
      match (List.range' n fuel).find? (fun k => escaped (orbit z (k + 1))) with
      | some k => Color.rgba ⟨0, 0, u8sub 155 (u8mul contrast k), 255⟩
      | none => Color.Black := by
  induction fuel generalizing n with
  | zero => simp [mandelbrotLoop]
  | succ f ih =>
    have hn : n < iterations := by omega
    have hinc : u8inc n = n + 1 := by
      unfold u8inc; unfold iterations at hn; omega
    rw [mandelbrotLoop, if_pos hn, List.range'_succ, List.find?_cons]
    by_cases he : escaped (orbit z (n + 1)) = true
    · have he1 : F64.gt (Complex128.Abs (Complex128.add (Complex128.mul (orbit z n) (orbit z n)) z))
          (F64.fin 2) = true := he
      simp only [he1, if_true, he]
    · have he1 : ¬ F64.gt (Complex128.Abs (Complex128.add (Complex128.mul (orbit z n) (orbit z n)) z))
          (F64.fin 2) = true := he
      simp only [he1, if_false]
      rw [Bool.not_eq_true] at he
      rw [he, hinc]
      exact ih (n + 1) (by omega)

theorem mandelbrot_eq (z : Complex128) :
    mandelbrot z =
      match firstEscape z with
      | some k => Color.rgba ⟨0, 0, u8sub 155 (u8mul contrast k), 255⟩
      | none => Color.Black := by
  have := mandelbrotLoop_eq z iterations 0 (by simp)
  unfold mandelbrot firstEscape
  rw [List.range_eq_range']
  exact this

/-- Whatever `mandelbrot` returns is stored fully opaque. -/
theorem mandelbrot_alpha (z : Complex128) : (rgbaModel (mandelbrot z)).a = 255 := by
  rw [mandelbrot_eq]
  cases firstEscape z <;> rfl

/-- The loop never runs out of fuel: from counter `n` it makes at most
`iterations - n` passes, so any larger fuel gives the same result. -/
theorem mandelbrotLoop_fuel (z : Complex128) (fuel n : Nat) (v : Complex128)
    (hn : n ≤ iterations) (h : iterations ≤ n + fuel) :
    mandelbrotLoop z fuel n v = mandelbrotLoop z (iterations - n) n v := by
  induction fuel generalizing n v with
  | zero =>
    have : iterations - n = 0 := by omega
    rw [this]
  | succ f ih =>
    rcases Nat.lt_or_ge n iterations with hlt | hge
    · obtain ⟨k, hk⟩ : ∃ k, iterations - n = k + 1 := ⟨iterations - n - 1, by omega⟩
      have hinc : u8inc n = n + 1 := by
        unfold u8inc; unfold iterations at hlt; omega
      have hk1 : k = iterations - (n + 1) := by omega
      rw [hk]
      simp only [mandelbrotLoop, if_pos hlt, hinc]
      split_ifs
      · rfl
      · rw [ih (n + 1) _ (by omega) (by omega), hk1]
    · have h0 : iterations - n = 0 := by omega
      have hnlt : ¬ n < iterations := by omega
      rw [h0]
      simp only [mandelbrotLoop, if_neg hnlt]

theorem mandelbrot_fuel (z : Complex128) (fuel : Nat) (h : iterations ≤ fuel) :
    mandelbrotLoop z fuel 0 ⟨F64.fin 0, F64.fin 0⟩ = mandelbrot z := by
  rw [mandelbrotLoop_fuel z fuel 0 _ (Nat.zero_le _) (by omega)]
  rfl

theorem firstEscape_lt {z : Complex128} {n : Nat} (h : firstEscape z = some n) :
    n < iterations := by
  unfold firstEscape at h
  have := List.mem_of_find?_eq_some h
  simpa using this

theorem find?_range'_eq_some (p : Nat → Bool) (len s n : Nat) :
    (List.range' s len).find? p = some n ↔
      s ≤ n ∧ n < s + len ∧ p n = true ∧ ∀ j, s ≤ j → j < n → p j = false := by
  induction len generalizing s with
  | zero =>
    simp only [List.range'_zero, List.find?_nil, add_zero]
    constructor
    · intro h; cases h
    · rintro ⟨h1, h2, _⟩; omega
  | succ len ih =>
    rw [List.range'_succ, List.find?_cons]
    cases hs : p s with
    | true =>
      simp only [Option.some.injEq]
      constructor
      · rintro rfl
        exact ⟨le_rfl, by omega, hs, fun j h1 h2 => by omega⟩
      · rintro ⟨h1, _, _, h4⟩
        rcases Nat.eq_or_lt_of_le h1 with h | h
        · exact h
        · have := h4 s le_rfl h
          rw [hs] at this; cases this
    | false =>
      simp only
      rw [ih (s + 1)]
      constructor
      · rintro ⟨h1, h2, h3, h4⟩
        refine ⟨by omega, by omega, h3, ?_⟩
        intro j hj1 hj2
        rcases Nat.eq_or_lt_of_le hj1 with h | h
        · rw [← h]; exact hs
        · exact h4 j (by omega) hj2
      · rintro ⟨h1, h2, h3, h4⟩
        have hne : s ≠ n := by
          rintro rfl
          rw [hs] at h3; cases h3
        exact ⟨by omega, by omega, h3, fun j hj1 hj2 => h4 j (by omega) hj2⟩

theorem firstEscape_some_iff (z : Complex128) (n : Nat) :
    firstEscape z = some n ↔
      n < iterations ∧ escaped (orbit z (n + 1)) = true ∧
        ∀ j < n, escaped (orbit z (j + 1)) = false := by
  unfold firstEscape
  rw [List.range_eq_range', find?_range'_eq_some]
  constructor
  · rintro ⟨_, h2, h3, h4⟩
    exact ⟨by omega, h3, fun j hj => h4 j (Nat.zero_le j) hj⟩
  · rintro ⟨h1, h2, h3⟩
    exact ⟨Nat.zero_le n, by omega, h2, fun j _ hj => h3 j hj⟩

theorem firstEscape_none_iff (z : Complex128) :
    firstEscape z = none ↔ ∀ j < iterations, escaped (orbit z (j + 1)) = false := by
  unfold firstEscape
  rw [List.find?_eq_none]
  simp

theorem orbit_one (z : Complex128) (hre : z.re.IsFloat64) (him : z.im.IsFloat64) :
    orbit z 1 = z := by
  have h0 : Complex128.mul ⟨F64.fin 0, F64.fin 0⟩ ⟨F64.fin 0, F64.fin 0⟩
      = ⟨F64.fin 0, F64.fin 0⟩ := by
    simp [Complex128.mul, F64.mul, F64.sub, F64.neg, F64.add, rnd_zero]
  obtain ⟨re, im⟩ := z
  simp only [orbit, h0, Complex128.add]
  rw [add_zero_of_isFloat64 re hre, add_zero_of_isFloat64 im him]

/-- The orbit of `-1` alternates between `-1` and `0` and never leaves the
radius. -/
theorem orbit_neg_one (k : ℕ) :
    orbit ⟨F64.fin (-1), F64.fin 0⟩ k = ⟨F64.fin 0, F64.fin 0⟩ ∨
    orbit ⟨F64.fin (-1), F64.fin 0⟩ k = ⟨F64.fin (-1), F64.fin 0⟩ := by
  induction k with
  | zero => left; rfl
  | succ k ih =>
    rcases ih with h | h
    · right
      rw [orbit, h]
      decide!
    · left
      rw [orbit, h]
      decide!

theorem firstEscape_neg_one : firstEscape ⟨F64.fin (-1), F64.fin 0⟩ = none := by
  rw [firstEscape_none_iff]
  intro j _
  rcases orbit_neg_one (j + 1) with h | h
  · rw [h]; decide!
  · rw [h]; decide!

/-! ## Navigation -/

theorem navInv_init : NavInv NavState.init :=
  ⟨rfl, ⟨2, rfl, by norm_num, le_rfl⟩, by simp [NavState.init], by simp [NavState.init]⟩

theorem navInv_keyStep {s : NavState} (h : NavInv s) (k : Key) : NavInv (keyStep s k) := by
  obtain ⟨hs, ⟨d, hd, hd0, hd2⟩, hx, hy⟩ := h
  obtain ⟨t, ht, ht0, ht2⟩ := rnd_small (q := 1 / 2 * d) (by linarith) (by linarith)
  have hm : F64.mul s.step s.deviation = F64.fin t := by rw [hs, hd]; exact ht
  cases k with
  | K_UP => exact ⟨hs, ⟨d, hd, hd0, hd2⟩, hx, by simpa [keyStep, hm] using sub_fin_ne_nan t hy⟩
  | K_DOWN => exact ⟨hs, ⟨d, hd, hd0, hd2⟩, hx, by simpa [keyStep, hm] using add_fin_ne_nan t hy⟩
  | K_LEFT => exact ⟨hs, ⟨d, hd, hd0, hd2⟩, by simpa [keyStep, hm] using sub_fin_ne_nan t hx, hy⟩
  | K_RIGHT => exact ⟨hs, ⟨d, hd, hd0, hd2⟩, by simpa [keyStep, hm] using add_fin_ne_nan t hx, hy⟩
  | K_RETURN =>
    obtain ⟨u, hu, hu0, hu2⟩ := rnd_small (q := d * (1 / 2)) (by linarith) (by linarith)
    refine ⟨hs, ⟨u, ?_, hu0, hu2⟩, hx, hy⟩
    simp only [keyStep]
    rw [hs, hd]; exact hu
  | other => exact ⟨hs, ⟨d, hd, hd0, hd2⟩, hx, hy⟩

theorem navInv_runKeys {s : NavState} (h : NavInv s) (ks : List Key) : NavInv (runKeys s ks) := by
  induction ks generalizing s with
  | nil => exact h
  | cons k ks ih => exact ih (navInv_keyStep h k)

theorem runKeys_append_singleton (s : NavState) (ks : List Key) (k : Key) :
    runKeys s (ks ++ [k]) = keyStep (runKeys s ks) k := by
  simp [runKeys, List.foldl_append]

theorem two_mul_half_pow (n : ℕ) : 2 * (1 / 2 : ℚ) ^ (n + 1) = pow2 (-(n : ℤ)) := by
  rw [pow2_eq, zpow_neg, zpow_natCast, pow_succ, one_div, inv_pow]
  field_simp
  ring

/-- Halving the deviation reached after `n` zooms: exact down to `2 ^ (-1074)`
(reached at `n = 1075`), and the next halving rounds to zero. -/
theorem halve_zoom (n : ℕ) :
    F64.mul (F64.fin (if n ≤ 1075 then 2 * (1 / 2) ^ n else 0)) (F64.fin (1 / 2)) =
      F64.fin (if n + 1 ≤ 1075 then 2 * (1 / 2) ^ (n + 1) else 0) := by
  simp only [F64.mul]
  by_cases h1 : n + 1 ≤ 1075
  · rw [if_pos (by omega), if_pos h1]
    have h2 : 2 * (1 / 2 : ℚ) ^ n * (1 / 2) = 2 * (1 / 2) ^ (n + 1) := by
      rw [pow_succ]; ring
    rw [h2, two_mul_half_pow]
    exact rnd_of_representable (representable_pow2 _ (by omega) (by omega))
  · rw [if_neg h1]
    by_cases h3 : n = 1075
    · subst h3
      rw [if_pos le_rfl]
      have h2 : 2 * (1 / 2 : ℚ) ^ 1075 * (1 / 2) = pow2 (-1075) := by
        have := two_mul_half_pow 1075
        rw [pow_succ] at this
        have hc : (-((1075 : ℕ) : ℤ)) = -1075 := by norm_num
        rw [hc] at this
        rw [← this]; ring
      rw [h2]; exact rnd_half_min_subnormal
    · rw [if_neg (by omega)]
      rw [zero_mul]; exact rnd_zero

/-- The state after `n` Return events from the initial state. -/
theorem zoom_state (n : ℕ) :
    runKeys NavState.init (List.replicate n Key.K_RETURN) =
      ⟨F64.fin 0, F64.fin 0, F64.fin (1 / 2),
        F64.fin (if n ≤ 1075 then 2 * (1 / 2) ^ n else 0)⟩ := by
  induction n with
  | zero => simp [runKeys, NavState.init]
  | succ n ih =>
    rw [List.replicate_succ', runKeys_append_singleton, ih]
    simp only [keyStep]
    rw [halve_zoom]

/-- In a reachable state `step` is `0.5` and `deviation` is determined by the
number of Return events so far. -/
theorem deviation_runKeys (ks : List Key) :
    (runKeys NavState.init ks).step = F64.fin (1 / 2) ∧
    (runKeys NavState.init ks).deviation =
      F64.fin (if ks.count Key.K_RETURN ≤ 1075 then 2 * (1 / 2) ^ ks.count Key.K_RETURN else 0) := by
  induction ks using List.reverseRecOn with
  | nil => simp [runKeys, NavState.init]
  | append_singleton l k ih =>
    obtain ⟨h1, h2⟩ := ih
    rw [runKeys_append_singleton, List.count_append]
    cases k
    case K_RETURN =>
      refine ⟨h1, ?_⟩
      simp only [keyStep, h1, h2]
      rw [halve_zoom]
      simp
    all_goals
      refine ⟨h1, ?_⟩
      simpa [keyStep] using h2

/-! ## The image -/

theorem getD_set_eq {α : Type} (l : List α) (i j : Nat) (a d : α) (hi : i < l.length) :
    (l.set i a).getD j d = if j = i then a else l.getD j d := by
  simp only [List.getD_eq_getElem?_getD, List.getElem?_set]
  by_cases h : i = j
  · subst h; simp [hi]
  · have h1 : ¬ j = i := fun e => h e.symm
    simp [h, h1]

theorem Image.Set_w (img : Image) (x y : Nat) (c : Color) : (img.Set x y c).w = img.w := by
  unfold Image.Set; split_ifs <;> rfl

theorem Image.Set_h (img : Image) (x y : Nat) (c : Color) : (img.Set x y c).h = img.h := by
  unfold Image.Set; split_ifs <;> rfl

theorem Image.Set_length (img : Image) (x y : Nat) (c : Color) :
    (img.Set x y c).pix.length = img.pix.length := by
  unfold Image.Set; split_ifs <;> simp

theorem Image.RGBAAt_Set (img : Image) (hlen : img.pix.length = img.w * img.h)
    (x0 y0 : Nat) (c : Color) (hx0 : x0 < img.w) (hy0 : y0 < img.h) (x y : Nat) :
    (img.Set x0 y0 c).RGBAAt x y =
      if x = x0 ∧ y = y0 then rgbaModel c else img.RGBAAt x y := by
  have hidx : y0 * img.w + x0 < img.pix.length := by
    rw [hlen]
    calc y0 * img.w + x0 < y0 * img.w + img.w := by omega
      _ = (y0 + 1) * img.w := by ring
      _ ≤ img.h * img.w := Nat.mul_le_mul_right _ hy0
      _ = img.w * img.h := Nat.mul_comm _ _
  have hset : img.Set x0 y0 c =
      { img with pix := img.pix.set (y0 * img.w + x0) (rgbaModel c) } := by
    unfold Image.Set; rw [if_pos ⟨hx0, hy0⟩]
  rw [hset]
  unfold Image.RGBAAt
  simp only
  by_cases hb : x < img.w ∧ y < img.h
  · rw [if_pos hb, if_pos hb, getD_set_eq _ _ _ _ _ hidx]
    by_cases he : x = x0 ∧ y = y0
    · obtain ⟨rfl, rfl⟩ := he
      simp
    · rw [if_neg he, if_neg]
      intro hi
      apply he
      have h1 : x + img.w * y = x0 + img.w * y0 := by
        rw [Nat.mul_comm img.w y, Nat.mul_comm img.w y0]; omega
      have h2 := congrArg (· % img.w) h1
      have h3 := congrArg (· / img.w) h1
      simp only [Nat.add_mul_mod_self_left, Nat.mod_eq_of_lt hb.1, Nat.mod_eq_of_lt hx0] at h2
      have hwpos : 0 < img.w := by omega
      simp only [Nat.add_mul_div_left _ _ hwpos, Nat.div_eq_of_lt hb.1, Nat.div_eq_of_lt hx0,
        Nat.zero_add] at h3
      exact ⟨h2, h3⟩
  · rw [if_neg hb, if_neg hb, if_neg]
    rintro ⟨rfl, rfl⟩
    exact hb ⟨hx0, hy0⟩

theorem fold_Set_row (c : Nat → Color) (py n : Nat) (img : Image)
    (hlen : img.pix.length = img.w * img.h) (hn : n ≤ img.w) (hpy : py < img.h) :
    ((List.range n).foldl (fun im px => im.Set px py (c px)) img).w = img.w ∧
    ((List.range n).foldl (fun im px => im.Set px py (c px)) img).h = img.h ∧
    ((List.range n).foldl (fun im px => im.Set px py (c px)) img).pix.length
      = img.pix.length ∧
    ∀ x y, ((List.range n).foldl (fun im px => im.Set px py (c px)) img).RGBAAt x y =
      if x < n ∧ y = py then rgbaModel (c x) else img.RGBAAt x y := by
  induction n with
  | zero => simp
  | succ n ih =>
    obtain ⟨hw, hh, hl, hat⟩ := ih (by omega)
    rw [List.range_succ, List.foldl_append]
    simp only [List.foldl_cons, List.foldl_nil]
    refine ⟨by rw [Image.Set_w, hw], by rw [Image.Set_h, hh], by rw [Image.Set_length, hl], ?_⟩
    intro x y
    rw [Image.RGBAAt_Set _ (by rw [hl, hw, hh, hlen]) n py (c n) (by rw [hw]; omega)
      (by rw [hh]; exact hpy), hat]
    by_cases h1 : x = n ∧ y = py
    · obtain ⟨rfl, rfl⟩ := h1
      simp
    · rw [if_neg h1]
      by_cases h2 : x < n ∧ y = py
      · rw [if_pos h2, if_pos ⟨by omega, h2.2⟩]
      · rw [if_neg h2, if_neg]
        rintro ⟨h3, h4⟩
        rcases Nat.lt_succ_iff_lt_or_eq.mp h3 with h5 | h5
        · exact h2 ⟨h5, h4⟩
        · exact h1 ⟨h5, h4⟩

theorem NewRGBA_RGBAAt (w h x y : Nat) : (Image.NewRGBA w h).RGBAAt x y = ⟨0, 0, 0, 0⟩ := by
  unfold Image.RGBAAt Image.NewRGBA
  simp only
  split_ifs
  · rw [List.getD_eq_getElem?_getD, List.getElem?_replicate]
    split_ifs <;> rfl
  · rfl

theorem fractalRow_spec (minX maxX y : F64) (py : Nat) (img : Image)
    (hlen : img.pix.length = img.w * img.h) (hw : img.w = winWidth) (hpy : py < img.h) :
    (fractalRow minX maxX y py img).w = img.w ∧
    (fractalRow minX maxX y py img).h = img.h ∧
    (fractalRow minX maxX y py img).pix.length = img.pix.length ∧
    ∀ x y1, (fractalRow minX maxX y py img).RGBAAt x y1 =
      if x < winWidth ∧ y1 = py then rgbaModel (mandelbrot ⟨mapCoord x winWidth minX maxX, y⟩)
      else img.RGBAAt x y1 := by
  unfold fractalRow
  exact fold_Set_row (fun px => mandelbrot ⟨mapCoord px winWidth minX maxX, y⟩)
    py winWidth img hlen (by rw [hw]) hpy

theorem createFractal_rows (minX maxX minY maxY : F64) (n : Nat) (hn : n ≤ winHeight) :
    ((List.range n).foldl
        (fun im py => fractalRow minX maxX (mapCoord py winHeight minY maxY) py im)
        (Image.NewRGBA winWidth winHeight)).w = winWidth ∧
    ((List.range n).foldl
        (fun im py => fractalRow minX maxX (mapCoord py winHeight minY maxY) py im)
        (Image.NewRGBA winWidth winHeight)).h = winHeight ∧
    ((List.range n).foldl
        (fun im py => fractalRow minX maxX (mapCoord py winHeight minY maxY) py im)
        (Image.NewRGBA winWidth winHeight)).pix.length = winWidth * winHeight ∧
    ∀ x y, ((List.range n).foldl
        (fun im py => fractalRow minX maxX (mapCoord py winHeight minY maxY) py im)
        (Image.NewRGBA winWidth winHeight)).RGBAAt x y =
      if x < winWidth ∧ y < n then rgbaModel (mandelbrot (pixelPoint minX maxX minY maxY x y))
      else ⟨0, 0, 0, 0⟩ := by
  induction n with
  | zero =>
    refine ⟨rfl, rfl, by simp [Image.NewRGBA], ?_⟩
    intro x y
    simp [NewRGBA_RGBAAt]
  | succ n ih =>
    obtain ⟨hw, hh, hl, hat⟩ := ih (by omega)
    rw [List.range_succ, List.foldl_append]
    simp only [List.foldl_cons, List.foldl_nil]
    obtain ⟨rw1, rh1, rl1, rat1⟩ := fractalRow_spec minX maxX
      (mapCoord n winHeight minY maxY) n _ (by rw [hl, hw, hh]) hw (by rw [hh]; omega)
    refine ⟨by rw [rw1, hw], by rw [rh1, hh], by rw [rl1, hl], ?_⟩
    intro x y
    rw [rat1, hat]
    by_cases h1 : x < winWidth ∧ y = n
    · obtain ⟨h1a, rfl⟩ := h1
      rw [if_pos ⟨h1a, rfl⟩, if_pos ⟨h1a, Nat.lt_succ_self _⟩]
      rfl
    · rw [if_neg h1]
      by_cases h2 : x < winWidth ∧ y < n
      · rw [if_pos h2, if_pos ⟨h2.1, by omega⟩]
      · rw [if_neg h2, if_neg]
        rintro ⟨h3, h4⟩
        rcases Nat.lt_succ_iff_lt_or_eq.mp h4 with h5 | h5
        · exact h2 ⟨h3, h5⟩
        · exact h1 ⟨h3, h5⟩

theorem createFractal_RGBAAt (minX maxX minY maxY : F64) (px py : Nat)
    (hx : px < winWidth) (hy : py < winHeight) :
    (createFractal minX maxX minY maxY).RGBAAt px py =
      rgbaModel (mandelbrot (pixelPoint minX maxX minY maxY px py)) := by
  obtain ⟨_, _, _, hat⟩ := createFractal_rows minX maxX minY maxY winHeight le_rfl
  have := hat px py
  rw [if_pos ⟨hx, hy⟩] at this
  exact this

/-! ## The pixel mapping -/

/-- Error of the coordinate expression `r * (b - a) + a`, each operation
rounded, against the exact `ρ * (b - a) + a`. -/
theorem map_err (a b r ρ : ℚ) (hab : a < b) (hr0 : 0 ≤ r) (hr1 : r ≤ 1)
    (hρ : |r - ρ| ≤ 1 / 2 ^ 53) :
    |rndVal (rndVal (r * rndVal (b - a)) + a) - (ρ * (b - a) + a)|
      ≤ (|a| + |b|) / 2 ^ 50 + pow2 (-1072) := by
  set w := rndVal (b - a) with hw
  set p := rndVal (r * w) with hp
  set x := rndVal (p + a) with hx
  have hη := pow2_pos (-1075)
  set η := pow2 (-1075) with hηdef
  have hw0 : 0 < b - a := by linarith
  have e1 := rndVal_err (b - a)
  rw [abs_of_pos hw0, ← hw] at e1
  have hwn : 0 ≤ w := rndVal_nonneg hw0.le
  have hrw : 0 ≤ r * w := mul_nonneg hr0 hwn
  have hrw1 : r * w ≤ w := by nlinarith
  have e2 := rndVal_err (r * w)
  rw [abs_of_nonneg hrw, ← hp] at e2
  have hpn : 0 ≤ p := rndVal_nonneg hrw
  have e3 := rndVal_err (p + a)
  rw [← hx] at e3
  have hpa : |p + a| ≤ p + |a| := by
    calc |p + a| ≤ |p| + |a| := abs_add p a
      _ = p + |a| := by rw [abs_of_nonneg hpn]
  have hA := abs_nonneg a
  have hB := abs_nonneg b
  have hA1 := le_abs_self a
  have hA2 := neg_abs_le a
  have hB1 := le_abs_self b
  have hB2 := neg_abs_le b
  -- the two products with the unknown factor `r`
  have e4 : |r * (w - (b - a))| ≤ (b - a) / 2 ^ 53 + η := by
    rw [abs_mul, abs_of_nonneg hr0]
    calc r * |w - (b - a)| ≤ 1 * |w - (b - a)| :=
          mul_le_mul_of_nonneg_right hr1 (abs_nonneg _)
      _ = |w - (b - a)| := one_mul _
      _ ≤ (b - a) / 2 ^ 53 + η := e1
  have e5 : |(r - ρ) * (b - a)| ≤ (b - a) / 2 ^ 53 := by
    rw [abs_mul, abs_of_pos hw0]
    calc |r - ρ| * (b - a) ≤ 1 / 2 ^ 53 * (b - a) :=
          mul_le_mul_of_nonneg_right hρ hw0.le
      _ = (b - a) / 2 ^ 53 := by ring
  have e1' := abs_le.mp e1
  have e2' := abs_le.mp e2
  have e3' := abs_le.mp e3
  have e4' := abs_le.mp e4
  have e5' := abs_le.mp e5
  have hsplit : x - (ρ * (b - a) + a) =
      (x - (p + a)) + (p - r * w) + r * (w - (b - a)) + (r - ρ) * (b - a) := by ring
  rw [pow2_neg1072, hsplit, abs_le]
  have hrwd : r * w / 2 ^ 53 ≤ w / 2 ^ 53 := by
    apply div_le_div_of_nonneg_right hrw1; positivity
  have hpad : |p + a| / 2 ^ 53 ≤ (p + |a|) / 2 ^ 53 := by
    apply div_le_div_of_nonneg_right hpa; positivity
  constructor <;> linarith [e1'.1, e1'.2, e2'.1, e2'.2, e3'.1, e3'.2, e4'.1, e4'.2, e5'.1, e5'.2]

/-- The coordinate expression with a finite, correctly ordered range: every
intermediate result is finite and the value is the exact one up to rounding. -/
theorem mapCoord_err (p size : ℕ) (a b w r : ℚ) (hab : a < b)
    (ha : Representable a) (hb : Representable b)
    (hsub : F64.sub (F64.fin b) (F64.fin a) = F64.fin w)
    (hdiv : F64.div (F64.ofNat p) (F64.ofNat size) = F64.fin r)
    (hr0 : 0 ≤ r) (hr1 : r ≤ 1 - 1 / 1024) (hρ : |r - (p : ℚ) / size| ≤ 1 / 2 ^ 53) :
    ∃ x : ℚ, mapCoord p size (F64.fin a) (F64.fin b) = F64.fin x ∧
      |x - ((p : ℚ) / size * (b - a) + a)| ≤ (|a| + |b|) / 2 ^ 50 + pow2 (-1072) := by
  have hsub1 : rnd (b + -a) = F64.fin w := hsub
  obtain ⟨hw, hwlt⟩ := rnd_fin_inv hsub1
  rw [show b + -a = b - a by ring] at hw hwlt
  have hη := pow2_pos (-1075)
  have hηle := pow2_neg1075_le
  have hP := pow2_pos 971
  have hT := pow2_1024_eq
  have hw0 : 0 < b - a := by linarith
  have hwn : 0 ≤ w := by rw [hw]; exact rndVal_nonneg hw0.le
  have e1 := rndVal_err (b - a)
  rw [abs_of_pos hw0, ← hw] at e1
  have e1' := abs_le.mp e1
  rw [← hw, abs_of_nonneg hwn] at hwlt
  have hrw : 0 ≤ r * w := mul_nonneg hr0 hwn
  have hrw1 : r * w ≤ (1 - 1 / 1024) * w := mul_le_mul_of_nonneg_right hr1 hwn
  have e2 := rndVal_err (r * w)
  rw [abs_of_nonneg hrw] at e2
  have e2' := abs_le.mp e2
  have hpn : 0 ≤ rndVal (r * w) := rndVal_nonneg hrw
  have hrwd : r * w / 2 ^ 53 ≤ (1 - 1 / 1024) * w / 2 ^ 53 := by
    apply div_le_div_of_nonneg_right hrw1; positivity
  -- the product does not overflow
  have hpfin : |rndVal (r * w)| < pow2 1024 := by
    rw [abs_of_nonneg hpn]
    linarith [e2'.2]
  have hmul : F64.mul (F64.fin r) (F64.fin w) = F64.fin (rndVal (r * w)) := rnd_eq_fin hpfin
  -- neither does the sum
  have hAb := abs_le.mp (abs_le_of_representable hb)
  have hAa := abs_le.mp (abs_le_of_representable ha)
  have hlow : a ≤ rndVal (rndVal (r * w) + a) := by
    have := rndVal_mono (show a ≤ rndVal (r * w) + a by linarith)
    rwa [rndVal_of_representable ha] at this
  have hup : rndVal (rndVal (r * w) + a) < pow2 1024 := by
    rcases le_or_lt 0 (rndVal (r * w) + a) with hs | hs
    · have e3 := rndVal_err (rndVal (r * w) + a)
      rw [abs_of_nonneg hs] at e3
      have e3' := abs_le.mp e3
      linarith [e3'.2]
    · have := rndVal_nonpos hs.le
      have : 0 < pow2 1024 := pow2_pos _
      linarith
  have hxfin : |rndVal (rndVal (r * w) + a)| < pow2 1024 := by
    rw [abs_lt]
    constructor <;> linarith
  refine ⟨rndVal (rndVal (r * w) + a), ?_, ?_⟩
  · unfold mapCoord
    rw [hdiv, hsub, hmul]
    exact rnd_eq_fin hxfin
  · have := map_err a b r ((p : ℚ) / size) hab hr0 (by linarith) hρ
    rw [← hw] at this
    exact this

theorem mapCoord_zero (size : ℕ) (hs0 : 0 < size) (hs : size < 2 ^ 53) (a b w : ℚ)
    (ha : Representable a) (hsub : F64.sub (F64.fin b) (F64.fin a) = F64.fin w) :
    mapCoord 0 size (F64.fin a) (F64.fin b) = F64.fin a := by
  have h0 : F64.ofNat 0 = F64.fin 0 := by
    have := ofNat_small 0 (by norm_num)
    simpa using this
  have hsz : (size : ℚ) ≠ 0 := by exact_mod_cast hs0.ne'
  unfold mapCoord
  rw [hsub, h0, ofNat_small size hs]
  simp only [F64.div, if_neg hsz, zero_div, rnd_zero, F64.mul, zero_mul, F64.add, zero_add]
  exact rnd_of_representable ha

theorem div_939_940 :
    F64.div (F64.ofNat 939) (F64.ofNat 940) = F64.fin (4498808563937123 / 4503599627370496) := by
  decide!

theorem div_719_720 :
    F64.div (F64.ofNat 719) (F64.ofNat 720) = F64.fin (4497344627888037 / 4503599627370496) := by
  decide!

/-- On the default viewport `(-2, 2)` the coordinate of pixel `p ≤ size` is
the thrice rounded `p/size*4 + (-2)`. -/
theorem mapCoord_default (p size : ℕ) (hp : p ≤ size) (hs0 : 0 < size) (hs : size < 2 ^ 53) :
    mapCoord p size (F64.fin (-2)) (F64.fin 2) =
      F64.fin (rndVal (rndVal (rndVal ((p : ℚ) / size) * 4) + -2)) := by
  have hszq : (0 : ℚ) < size := by exact_mod_cast hs0
  have hq0 : (0 : ℚ) ≤ (p : ℚ) / size := by positivity
  have hq1 : (p : ℚ) / size ≤ 1 := by
    rw [div_le_one hszq]; exact_mod_cast hp
  have r0 : Representable (0 : ℚ) := by simpa using representable_int 0 (by norm_num)
  have r1 : Representable (1 : ℚ) := by simpa using representable_int 1 (by norm_num)
  have r4 : Representable (4 : ℚ) := by simpa using representable_int 4 (by norm_num)
  have rm2 : Representable (-2 : ℚ) := by simpa using representable_int (-2) (by norm_num)
  have r2 : Representable (2 : ℚ) := by simpa using representable_int 2 (by norm_num)
  obtain ⟨e1, e1a, e1b⟩ := rnd_between r0 r1 hq0 hq1
  obtain ⟨e2, e2a, e2b⟩ := rnd_between (q := rndVal ((p : ℚ) / size) * 4) r0 r4
    (by linarith) (by linarith)
  obtain ⟨e3, _, _⟩ := rnd_between (q := rndVal (rndVal ((p : ℚ) / size) * 4) + -2) rm2 r2
    (by linarith) (by linarith)
  have hsub : F64.sub (F64.fin 2) (F64.fin (-2)) = F64.fin 4 := by
    simp only [F64.sub, F64.neg, F64.add]
    rw [show (2 : ℚ) + - -2 = 4 by norm_num]
    exact rnd_of_representable r4
  unfold mapCoord
  rw [hsub, ofNat_small p (by omega), ofNat_small size hs]
  simp only [F64.div, if_neg hszq.ne', e1, F64.mul, e2, F64.add, e3]

theorem mapCoord_default_mono (p p1 size : ℕ) (h : p ≤ p1) (hp : p1 ≤ size) (hs0 : 0 < size)
    (hs : size < 2 ^ 53) :
    F64.le (mapCoord p size (F64.fin (-2)) (F64.fin 2))
      (mapCoord p1 size (F64.fin (-2)) (F64.fin 2)) = true := by
  rw [mapCoord_default p size (h.trans hp) hs0 hs, mapCoord_default p1 size hp hs0 hs]
  have hszq : (0 : ℚ) < size := by exact_mod_cast hs0
  have h1 : (p : ℚ) / size ≤ (p1 : ℚ) / size := by
    apply div_le_div_of_nonneg_right _ hszq.le
    exact_mod_cast h
  have h2 := rndVal_mono h1
  have h3 := rndVal_mono (show rndVal ((p : ℚ) / size) * 4 ≤ rndVal ((p1 : ℚ) / size) * 4 by linarith)
  have h4 := rndVal_mono (show rndVal (rndVal ((p : ℚ) / size) * 4) + -2
    ≤ rndVal (rndVal ((p1 : ℚ) / size) * 4) + -2 by linarith)
  simp only [F64.le, F64.lt, F64.eq, Bool.or_eq_true, decide_eq_true_eq]
  exact lt_or_eq_of_le h4

/-! ## The computed magnitude `cmplx.Abs` -/

theorem isqrtAux_spec (n k r : Nat) (h1 : r * r ≤ n) (h2 : n < (r + 2 ^ k) * (r + 2 ^ k)) :
    isqrtAux n k r * isqrtAux n k r ≤ n ∧
      n < (isqrtAux n k r + 1) * (isqrtAux n k r + 1) := by
  induction k generalizing r with
  | zero => simpa [isqrtAux] using ⟨h1, h2⟩
  | succ k ih =>
    simp only [isqrtAux]
    split_ifs with hc
    · apply ih _ hc
      have : r + 2 ^ k + 2 ^ k = r + 2 ^ (k + 1) := by rw [pow_succ]; ring
      rw [this]; exact h2
    · exact ih _ h1 (not_le.mp hc)

theorem isqrt_spec (n : Nat) : isqrt n * isqrt n ≤ n ∧ n < (isqrt n + 1) * (isqrt n + 1) := by
  unfold isqrt
  apply isqrtAux_spec _ _ _ (Nat.zero_le _)
  rw [Nat.zero_add, ← pow_add]
  rcases Nat.eq_zero_or_pos n with h0 | hpos
  · subst h0; positivity
  · have h := (log2_spec n hpos.ne').2
    refine lt_of_lt_of_le h (Nat.pow_le_pow_right (by norm_num) ?_)
    omega

/-- The rounded square root of a number in `[1, 2]`: it lies in `[1, 2]` and is
within half an ulp, `2^-53`, below the exact root. -/
theorem rndSqrt_one_two (A : ℚ) (h1 : 1 ≤ A) (h2 : A ≤ 2) :
    ∃ S : ℚ, rndSqrt A = F64.fin S ∧ 1 ≤ S ∧ S ≤ 2 ∧ A ≤ (S + 1 / 2 ^ 53) ^ 2 := by
  have hA0 : A ≠ 0 := by linarith
  obtain ⟨hb1, hb2⟩ := binade_spec A hA0
  rw [abs_of_pos (by linarith)] at hb1 hb2
  have hp0 : pow2 0 = 1 := by simp [pow2]
  have hp2 : pow2 2 = 4 := by simp [pow2]
  have hbl : 0 < binade A + 1 := by
    apply pow2_lt_pow2_iff.mp
    rw [hp0]; linarith
  have hbu : binade A < 2 := by
    apply pow2_lt_pow2_iff.mp
    rw [hp2]; linarith
  have he : max (binade A / 2) (-1022) - 52 = -52 := by omega
  have hp52 : pow2 (-52) = 1 / 2 ^ 52 := by rw [pow2_eq]; norm_num
  have hp104 : pow2 (2 * -52) = 1 / 2 ^ 104 := by rw [pow2_eq]; norm_num
  have hT : A / pow2 (2 * -52) = A * 2 ^ 104 := by rw [hp104]; field_simp
  simp only [rndSqrt, he, hT, hp52]
  set T : ℚ := A * 2 ^ 104 with hTdef
  have hT1 : (2 : ℚ) ^ 104 ≤ T := by rw [hTdef]; nlinarith
  have hT2 : T ≤ 2 ^ 105 := by rw [hTdef]; norm_num; linarith
  have hfl0 : (0 : ℤ) ≤ ⌊T⌋ := Int.floor_nonneg.mpr (by linarith [show (0:ℚ) < 2 ^ 104 by positivity])
  have hNZ : ((⌊T⌋.toNat : ℕ) : ℤ) = ⌊T⌋ := Int.toNat_of_nonneg hfl0
  have hNle : ((⌊T⌋.toNat : ℕ) : ℚ) ≤ T := by
    have := Int.floor_le T
    rw [← hNZ] at this
    exact_mod_cast this
  have hNlt : T < ((⌊T⌋.toNat : ℕ) : ℚ) + 1 := by
    have := Int.lt_floor_add_one T
    rw [← hNZ] at this
    exact_mod_cast this
  clear hNZ
  generalize ⌊T⌋.toNat = N at hNle hNlt ⊢
  obtain ⟨hs1, hs2⟩ := isqrt_spec N
  generalize isqrt N = s at hs1 hs2 ⊢
  have hs1q : (s : ℚ) * s ≤ N := by exact_mod_cast hs1
  have hs2q : (N : ℚ) + 1 ≤ ((s : ℚ) + 1) * ((s : ℚ) + 1) := by
    have : N + 1 ≤ (s + 1) * (s + 1) := hs2
    exact_mod_cast this
  have hslowq : (2 : ℚ) ^ 52 ≤ s := by
    have h : (2 : ℚ) ^ 52 < (s : ℚ) + 1 := by
      by_contra hc
      push_neg at hc
      have h0 : (0 : ℚ) ≤ (s : ℚ) + 1 := add_nonneg (Nat.cast_nonneg s) zero_le_one
      have : ((s : ℚ) + 1) * ((s : ℚ) + 1) ≤ 2 ^ 52 * 2 ^ 52 :=
        mul_le_mul hc hc h0 (by norm_num)
      have e : (2 : ℚ) ^ 52 * 2 ^ 52 = 2 ^ 104 := by norm_num
      linarith
    have h' : 2 ^ 52 < s + 1 := by exact_mod_cast h
    have h'' : 2 ^ 52 ≤ s := Nat.lt_succ_iff.mp h'
    exact_mod_cast h''
  have hsupq : (s : ℚ) + 1 ≤ 2 ^ 53 := by
    have h : (s : ℚ) < 2 ^ 53 := by
      by_contra hc
      push_neg at hc
      have : (2 : ℚ) ^ 53 * 2 ^ 53 ≤ (s : ℚ) * s :=
        mul_le_mul hc hc (by norm_num) (Nat.cast_nonneg s)
      have e : (2 : ℚ) ^ 53 * 2 ^ 53 = 2 ^ 106 := by norm_num
      have e2 : (2 : ℚ) ^ 105 < 2 ^ 106 := by norm_num
      linarith
    have h' : s < 2 ^ 53 := by exact_mod_cast h
    have h'' : s + 1 ≤ 2 ^ 53 := Nat.succ_le_of_lt h'
    exact_mod_cast h''
  -- the chosen significand `m` is `s` or `s + 1` and `(m + 1/2)^2 ≥ T`
  have key : ∀ m : ℕ, (m = s ∨ m = s + 1) → T ≤ ((m : ℚ) + 1 / 2) * ((m : ℚ) + 1 / 2) →
      ∃ S : ℚ, (if pow2 1024 ≤ (m : ℚ) * (1 / 2 ^ 52) then F64.inf false
          else F64.fin ((m : ℚ) * (1 / 2 ^ 52))) = F64.fin S ∧
        1 ≤ S ∧ S ≤ 2 ∧ A ≤ (S + 1 / 2 ^ 53) ^ 2 := by
    intro m hm hmT
    have hm1 : (2 : ℚ) ^ 52 ≤ m := by
      rcases hm with rfl | rfl
      · exact hslowq
      · push_cast; linarith
    have hm2 : (m : ℚ) ≤ 2 ^ 53 := by
      rcases hm with rfl | rfl
      · linarith
      · push_cast; exact hsupq
    have hS1 : (1 : ℚ) ≤ (m : ℚ) * (1 / 2 ^ 52) := by
      rw [mul_one_div, le_div_iff₀ (by positivity)]; linarith
    have hS2 : (m : ℚ) * (1 / 2 ^ 52) ≤ 2 := by
      rw [mul_one_div, div_le_iff₀ (by positivity)]
      norm_num at hm2 ⊢; linarith
    refine ⟨(m : ℚ) * (1 / 2 ^ 52), ?_, hS1, hS2, ?_⟩
    · rw [if_neg]
      exact not_le.mpr (lt_of_le_of_lt hS2 two_lt_pow2_1024)
    · have e : ((m : ℚ) * (1 / 2 ^ 52) + 1 / 2 ^ 53) ^ 2
          = ((m : ℚ) + 1 / 2) * ((m : ℚ) + 1 / 2) / 2 ^ 104 := by
        field_simp; ring
      rw [e, le_div_iff₀ (by positivity)]
      exact hmT
  refine key _ ?_ ?_
  · split_ifs <;> simp
  · split_ifs with c1 c2 c3
    · exact c1.le
    · push_cast; nlinarith
    · exact le_of_not_lt (by assumption)
    · push_cast; nlinarith

theorem lt_two_rnd {q : ℚ} (h : 2 < rndVal q) : F64.lt (F64.fin 2) (rnd q) = true := by
  have hq : ¬ q < 0 := by
    intro hq
    have := rndVal_nonpos hq.le
    linarith
  unfold rnd
  split_ifs
  · simp [F64.lt, hq]
  · simp [F64.lt, h]

theorem pow2_neg1075_le_small : pow2 (-1075) ≤ 1 / 2 ^ 100 := by
  have h : pow2 (-100) = 1 / 2 ^ 100 := by rw [pow2_eq]; norm_num
  rw [← h]
  exact pow2_le_pow2 (by norm_num)

/-- Squaring the lower bound of a rounded quotient. -/
theorem hypot_arith_sq (Q y η : ℚ) (hQ0 : 0 ≤ Q) (hQ2 : Q ≤ 2) (hη : 0 < η)
    (hy : Q - Q / 2 ^ 53 - 2 * η ≤ y) :
    Q ^ 2 - 2 * Q ^ 2 / 2 ^ 53 - 8 * η ≤ y ^ 2 := by
  rcases le_or_lt 0 (Q - Q / 2 ^ 53 - 2 * η) with hL | hL
  · have h1 := mul_self_le_mul_self hL hy
    have h2 : (Q - Q / 2 ^ 53 - 2 * η) * (Q - Q / 2 ^ 53 - 2 * η)
        = Q ^ 2 - 2 * Q ^ 2 / 2 ^ 53 + Q ^ 2 / 2 ^ 106 - 4 * (Q * η) + 4 * (Q * η) / 2 ^ 53
          + 4 * η ^ 2 := by ring
    have h3 : Q * η ≤ 2 * η := mul_le_mul_of_nonneg_right hQ2 hη.le
    have h4 : 0 ≤ Q ^ 2 / 2 ^ 106 := by positivity
    have h5 : 0 ≤ 4 * (Q * η) / 2 ^ 53 := by positivity
    have h6 : 0 ≤ 4 * η ^ 2 := by positivity
    have h7 : y * y = y ^ 2 := by ring
    linarith
  · have hQs : Q < 4 * η := by
      have : Q / 2 ^ 53 ≤ Q / 2 := by
        apply div_le_div_of_nonneg_left hQ0 (by norm_num) (by norm_num)
      linarith
    have h1 : Q ^ 2 ≤ 2 * Q := by
      have := mul_le_mul_of_nonneg_left hQ2 hQ0
      have e : Q * Q = Q ^ 2 := by ring
      linarith
    have h2 : 0 ≤ 2 * Q ^ 2 / 2 ^ 53 := by positivity
    have h3 : 0 ≤ y ^ 2 := sq_nonneg y
    linarith

/-- The arithmetic of `math.Hypot` for `0 ≤ Q ≤ P ≤ 2`: with each intermediate
result within its rounding error, a modulus with `P^2 + Q^2 ≥ 4 + 2^-47` gives a
product `P * S` of at least `2 + 2^-51`. -/
theorem hypot_arith (P Q d v w A S η : ℚ) (hP0 : 0 < P) (hP2 : P ≤ 2) (hQ0 : 0 ≤ Q)
    (hQP : Q ≤ P) (hsum : 4 + 1 / 2 ^ 47 ≤ P ^ 2 + Q ^ 2)
    (hη : 0 < η) (hηs : η ≤ 1 / 2 ^ 100) (hdP : d * P = Q)
    (v0 : 0 ≤ v) (v1 : v ≤ 1) (w1 : w ≤ 1) (S1 : 1 ≤ S)
    (f1 : -(d / 2 ^ 53 + η) ≤ v - d)
    (f2 : -(v * v / 2 ^ 53 + η) ≤ w - v * v)
    (f3 : -((1 + w) / 2 ^ 53 + η) ≤ A - (1 + w))
    (hSA : A ≤ (S + 1 / 2 ^ 53) ^ 2) :
    2 + 1 / 2 ^ 51 ≤ P * S := by
  have hy0 : 0 ≤ P * v := mul_nonneg hP0.le v0
  have hy : Q - Q / 2 ^ 53 - 2 * η ≤ P * v := by
    have h1 := mul_le_mul_of_nonneg_left f1 hP0.le
    have h2 : P * η ≤ 2 * η := mul_le_mul_of_nonneg_right hP2 hη.le
    have h3 : P * (v - d) = P * v - Q := by rw [← hdP]; ring
    have h4 : P * -(d / 2 ^ 53 + η) = -(Q / 2 ^ 53) - P * η := by rw [← hdP]; ring
    rw [h3, h4] at h1
    linarith
  have hQ2 : Q ≤ 2 := hQP.trans hP2
  have hy2 := hypot_arith_sq Q (P * v) η hQ0 hQ2 hη hy
  have hPsq : P ^ 2 ≤ 4 := by
    have := mul_self_le_mul_self hP0.le hP2
    have e : P * P = P ^ 2 := by ring
    linarith
  have hQsq : Q ^ 2 ≤ 4 := by
    have := mul_self_le_mul_self hQ0 hQ2
    have e : Q * Q = Q ^ 2 := by ring
    linarith
  have hysq : (P * v) ^ 2 ≤ 4 := by
    have h1 : P * v ≤ 2 := by
      have := mul_le_mul hP2 v1 v0 (by norm_num : (0 : ℚ) ≤ 2)
      linarith
    have := mul_self_le_mul_self hy0 h1
    have e : P * v * (P * v) = (P * v) ^ 2 := by ring
    linarith
  have hw : (P * v) ^ 2 - (P * v) ^ 2 / 2 ^ 53 - 4 * η ≤ P ^ 2 * w := by
    have h1 := mul_le_mul_of_nonneg_left f2 (sq_nonneg P)
    have h2 : P ^ 2 * η ≤ 4 * η := mul_le_mul_of_nonneg_right hPsq hη.le
    have h3 : P ^ 2 * -(v * v / 2 ^ 53 + η) = -((P * v) ^ 2 / 2 ^ 53) - P ^ 2 * η := by ring
    have h4 : P ^ 2 * (w - v * v) = P ^ 2 * w - (P * v) ^ 2 := by ring
    rw [h3, h4] at h1
    linarith
  have hA : P ^ 2 + P ^ 2 * w - 8 / 2 ^ 53 - 4 * η ≤ P ^ 2 * A := by
    have h0 : -(2 / 2 ^ 53 + η) ≤ A - (1 + w) := by
      have : (1 + w) / 2 ^ 53 ≤ 2 / 2 ^ 53 := by
        apply div_le_div_of_nonneg_right (by linarith) (by norm_num)
      linarith
    have h1 := mul_le_mul_of_nonneg_left h0 (sq_nonneg P)
    have h2 : P ^ 2 * (2 / 2 ^ 53 + η) ≤ 4 * (2 / 2 ^ 53 + η) :=
      mul_le_mul_of_nonneg_right hPsq (by positivity)
    have h3 : P ^ 2 * -(2 / 2 ^ 53 + η) = -(P ^ 2 * (2 / 2 ^ 53 + η)) := by ring
    have h4 : P ^ 2 * (A - (1 + w)) = P ^ 2 * A - P ^ 2 - P ^ 2 * w := by ring
    rw [h3, h4] at h1
    linarith
  have hX : P ^ 2 * A ≤ (P * S + P / 2 ^ 53) ^ 2 := by
    have := mul_le_mul_of_nonneg_left hSA (sq_nonneg P)
    calc P ^ 2 * A ≤ P ^ 2 * (S + 1 / 2 ^ 53) ^ 2 := this
      _ = (P * S + P / 2 ^ 53) ^ 2 := by ring
  by_contra hc
  push_neg at hc
  have hPS0 : 0 ≤ P * S := mul_nonneg hP0.le (by linarith)
  have hb : P * S + P / 2 ^ 53 ≤ 2 + 1 / 2 ^ 51 + 2 / 2 ^ 53 := by
    have : P / 2 ^ 53 ≤ 2 / 2 ^ 53 := by
      apply div_le_div_of_nonneg_right hP2 (by norm_num)
    linarith
  have hb0 : 0 ≤ P * S + P / 2 ^ 53 := by positivity
  have hsq2 := mul_self_le_mul_self hb0 hb
  have e1 : (P * S + P / 2 ^ 53) * (P * S + P / 2 ^ 53) = (P * S + P / 2 ^ 53) ^ 2 := by ring
  have e2 : ((2 : ℚ) + 1 / 2 ^ 51 + 2 / 2 ^ 53) * (2 + 1 / 2 ^ 51 + 2 / 2 ^ 53)
      = 4 + 24 / 2 ^ 53 + 36 / 2 ^ 106 := by norm_num
  rw [e1, e2] at hsq2
  have hq1 : 2 * Q ^ 2 / 2 ^ 53 ≤ 8 / 2 ^ 53 := by
    apply div_le_div_of_nonneg_right (by linarith) (by norm_num)
  have hq2 : (P * v) ^ 2 / 2 ^ 53 ≤ 4 / 2 ^ 53 := by
    apply div_le_div_of_nonneg_right hysq (by norm_num)
  have n1 : (1 : ℚ) / 2 ^ 47 = 64 / 2 ^ 53 := by norm_num
  have n2 : (36 : ℚ) / 2 ^ 106 ≤ 1 / 2 ^ 53 := by norm_num
  have n3 : (16 : ℚ) * (1 / 2 ^ 100) ≤ 1 / 2 ^ 53 := by norm_num
  have n4 : (0 : ℚ) < 1 / 2 ^ 53 := by positivity
  linarith

/-- The tail of `math.Hypot` on `0 ≤ Q ≤ P`: when the exact modulus exceeds 2 by
the rounding margin `P^2 + Q^2 ≥ 4 + 2^-47`, the computed
`P * Sqrt(1 + (Q/P)*(Q/P))` exceeds 2. -/
theorem hypot_core (P Q : ℚ) (hP : Representable P) (hQ0 : 0 ≤ Q) (hQP : Q ≤ P)
    (hsum : 4 + 1 / 2 ^ 47 ≤ P ^ 2 + Q ^ 2) :
    F64.lt (F64.fin 2)
      (F64.mul (F64.fin P) (F64.sqrt (F64.add (F64.fin 1)
        (F64.mul (F64.div (F64.fin Q) (F64.fin P)) (F64.div (F64.fin Q) (F64.fin P))))))
      = true := by
  have hP1 : 1 < P := by nlinarith
  have hP0 : P ≠ 0 := by linarith
  have r0 : Representable (0 : ℚ) := by simpa using representable_int 0 (by norm_num)
  have r1 : Representable (1 : ℚ) := by simpa using representable_int 1 (by norm_num)
  have r2 : Representable (2 : ℚ) := by simpa using representable_int 2 (by norm_num)
  have hd0 : 0 ≤ Q / P := div_nonneg hQ0 (by linarith)
  have hd1 : Q / P ≤ 1 := by rw [div_le_one (by linarith)]; exact hQP
  obtain ⟨e1, v0, v1⟩ := rnd_between r0 r1 hd0 hd1
  have hvv0 : 0 ≤ rndVal (Q / P) * rndVal (Q / P) := mul_nonneg v0 v0
  have hvv1 : rndVal (Q / P) * rndVal (Q / P) ≤ 1 := by
    have := mul_le_mul v1 v1 v0 (by norm_num : (0 : ℚ) ≤ 1)
    linarith
  obtain ⟨e2, w0, w1⟩ := rnd_between r0 r1 hvv0 hvv1
  obtain ⟨e3, A1, A2⟩ := rnd_between (q := 1 + rndVal (rndVal (Q / P) * rndVal (Q / P))) r1 r2
    (by linarith) (by linarith)
  obtain ⟨S, hS, S1, S2, hSA⟩ := rndSqrt_one_two _ A1 A2
  have hsq : F64.sqrt (F64.fin (rndVal (1 + rndVal (rndVal (Q / P) * rndVal (Q / P)))))
      = F64.fin S := by
    simp only [F64.sqrt]
    rw [if_neg (by linarith), if_neg (by linarith), hS]
  simp only [F64.div, if_neg hP0, e1, F64.mul, e2, F64.add, e3, hsq]
  apply lt_two_rnd
  rcases lt_or_le 2 P with hbig | hP2
  · have h1 : P ≤ P * S := by
      have := mul_le_mul_of_nonneg_left S1 (show (0 : ℚ) ≤ P by linarith)
      linarith
    have := rndVal_mono h1
    rw [rndVal_of_representable hP] at this
    linarith
  · have f1 := (abs_le.mp (rndVal_err (Q / P))).1
    have f2 := (abs_le.mp (rndVal_err (rndVal (Q / P) * rndVal (Q / P)))).1
    have f3 := (abs_le.mp (rndVal_err (1 + rndVal (rndVal (Q / P) * rndVal (Q / P))))).1
    rw [abs_of_nonneg hd0] at f1
    rw [abs_of_nonneg hvv0] at f2
    rw [abs_of_nonneg (by linarith)] at f3
    have hXge := hypot_arith P Q (Q / P) _ _ _ S _ (by linarith) hP2 hQ0 hQP hsum
      (pow2_pos (-1075)) pow2_neg1075_le_small (div_mul_cancel₀ Q hP0) v0 v1 w1 S1 f1 f2 f3 hSA
    have r3 : Representable ((2 : ℚ) + 1 / 2 ^ 51) := by
      refine ⟨2 ^ 52 + 1, -51, by norm_num, by norm_num, by norm_num, ?_⟩
      rw [pow2_eq]; norm_num
    have := rndVal_mono hXge
    rw [rndVal_of_representable r3] at this
    have : (0 : ℚ) < 1 / 2 ^ 51 := by positivity
    linarith

theorem representable_abs {q : ℚ} (h : Representable q) : Representable |q| := by
  rcases le_or_lt 0 q with h0 | h0
  · rwa [abs_of_nonneg h0]
  · rw [abs_of_neg h0]; exact representable_neg h

/-- The body of `math.Hypot` on finite arguments. -/
theorem hypot_fin (a b : ℚ) :
    F64.hypot (F64.fin a) (F64.fin b) =
      if |a| < |b| then
        (if |b| = 0 then F64.fin 0
          else F64.mul (F64.fin |b|) (F64.sqrt (F64.add (F64.fin 1)
            (F64.mul (F64.div (F64.fin |a|) (F64.fin |b|))
              (F64.div (F64.fin |a|) (F64.fin |b|))))))
      else
        (if |a| = 0 then F64.fin 0
          else F64.mul (F64.fin |a|) (F64.sqrt (F64.add (F64.fin 1)
            (F64.mul (F64.div (F64.fin |b|) (F64.fin |a|))
              (F64.div (F64.fin |b|) (F64.fin |a|)))))) := by
  unfold F64.hypot
  simp only [F64.abs]
  rw [if_neg (by simp), if_neg (by simp)]
  by_cases hlt : |a| < |b|
  · simp only [F64.lt, hlt, decide_True, if_true, F64.eq, decide_eq_true_eq]
  · simp only [F64.lt, hlt, decide_False, if_false, F64.eq, decide_eq_true_eq, Bool.false_eq_true]

/-- The computed magnitude exceeds 2 whenever the exact modulus does so by the
rounding margin `re^2 + im^2 ≥ 4 + 2^-47`. -/
theorem hypot_gt_two (a b : ℚ) (ha : Representable a) (hb : Representable b)
    (h : 4 + 1 / 2 ^ 47 ≤ a ^ 2 + b ^ 2) :
    F64.gt (F64.hypot (F64.fin a) (F64.fin b)) (F64.fin 2) = true := by
  have hsq : 4 + 1 / 2 ^ 47 ≤ |a| ^ 2 + |b| ^ 2 := by rwa [sq_abs, sq_abs]
  have hpos : (0 : ℚ) < 1 / 2 ^ 47 := by positivity
  unfold F64.gt
  rw [hypot_fin]
  by_cases hlt : |a| < |b|
  · have hb0 : |b| ≠ 0 := by
      intro h0
      rw [h0] at hlt
      exact absurd hlt (not_lt.mpr (abs_nonneg a))
    rw [if_pos hlt, if_neg hb0]
    exact hypot_core |b| |a| (representable_abs hb) (abs_nonneg a) hlt.le (by linarith)
  · have hba : |b| ≤ |a| := not_lt.mp hlt
    have ha0 : |a| ≠ 0 := by
      intro h0
      rw [h0] at hba hsq
      have : |b| = 0 := le_antisymm hba (abs_nonneg b)
      rw [this] at hsq
      norm_num at hsq
    rw [if_neg hlt, if_neg ha0]
    exact hypot_core |a| |b| (representable_abs ha) (abs_nonneg b) hba hsq

theorem hypot_inf_left (s : Bool) (y : F64) :
    F64.gt (F64.hypot (F64.inf s) y) (F64.fin 2) = true := by
  unfold F64.gt F64.hypot
  simp [F64.abs, F64.lt]

theorem hypot_inf_right (s : Bool) (x : F64) :
    F64.gt (F64.hypot x (F64.inf s)) (F64.fin 2) = true := by
  unfold F64.gt F64.hypot
  simp [F64.abs, F64.lt]

/-- The first pass tests `z` itself: a computed magnitude above 2 stops the loop
with counter `0`. -/
theorem escape_at_zero (z : Complex128) (hre : z.re.IsFloat64) (him : z.im.IsFloat64)
    (h : F64.gt (Complex128.Abs z) (F64.fin 2) = true) :
    firstEscape z = some 0 ∧ mandelbrot z = Color.rgba ⟨0, 0, 155, 255⟩ := by
  have h1 : firstEscape z = some 0 := by
    rw [firstEscape_some_iff]
    refine ⟨by decide, ?_, fun j hj => absurd hj (Nat.not_lt_zero j)⟩
    rw [orbit_one z hre him]
    exact h
  refine ⟨h1, ?_⟩
  rw [mandelbrot_eq, h1]
  rfl

/-! ## The claims -/

/-- C1 (as amended): with the orbit `v 0 = 0`, `v (k+1) = v k ^ 2 + z`, the
loop's pass `n` (counting from 0) tests `|v (n+1)| > 2`; `mandelbrot z` returns
`RGBA{0, 0, (155 - 25*n) mod 256, 255}` for the first pass `n < 200` whose test
succeeds, and `color.Black` when none of the 200 tests succeeds. -/
theorem C1_mandelbrot_first_escape (z : Complex128) :
    (∀ n : Nat, n < 200 → escaped (orbit z (n + 1)) = true →
        (∀ j < n, escaped (orbit z (j + 1)) = false) →
        mandelbrot z = Color.rgba ⟨0, 0, ((155 - 25 * (n : ℤ)) % 256).toNat, 255⟩) ∧
    ((∀ j < 200, escaped (orbit z (j + 1)) = false) → mandelbrot z = Color.Black) := by
  constructor
  · intro n hn he hj
    have h := (firstEscape_some_iff z n).mpr ⟨hn, he, hj⟩
    rw [mandelbrot_eq, h]
    simp only [u8_blue]
  · intro hj
    have h := (firstEscape_none_iff z).mpr hj
    rw [mandelbrot_eq, h]

/-- C1 (witness): `z = 1 + i` stops at pass `n = 1`, since `|v 1| = |1 + i| ≤ 2` and
`|v 2| = |1 + 3i| > 2`, and is coloured `RGBA{0, 0, 130, 255}`. -/
theorem C1_mandelbrot_first_escape_witness :
    mandelbrot ⟨F64.fin 1, F64.fin 1⟩ = Color.rgba ⟨0, 0, 130, 255⟩ :=
  (C1_mandelbrot_first_escape ⟨F64.fin 1, F64.fin 1⟩).1 1 (by decide) (by decide!) (by decide!)

/-- C1 (counterexample): at `z = 3` the first index `k` with `|v k| > 2` is
`k = 1` (`v 0 = 0`, `v 1 = 3`), yet `mandelbrot z` is `RGBA{0, 0, 155, 255}`,
not `RGBA{0, 0, 155 - 25*1, 255}`. -/
theorem C1_counterexample :
    orbit ⟨F64.fin 3, F64.fin 0⟩ 1 = ⟨F64.fin 3, F64.fin 0⟩ ∧
    escaped (orbit ⟨F64.fin 3, F64.fin 0⟩ 0) = false ∧
    escaped (orbit ⟨F64.fin 3, F64.fin 0⟩ 1) = true ∧
    mandelbrot ⟨F64.fin 3, F64.fin 0⟩ = Color.rgba ⟨0, 0, 155, 255⟩ ∧
    mandelbrot ⟨F64.fin 3, F64.fin 0⟩ ≠ Color.rgba ⟨0, 0, 155 - 25 * 1, 255⟩ := by
  decide!

/-- C2: when the loop stops at pass `n` (so `n < 200`), `mandelbrot` returns
`RGBA(0, 0, (155 - 25*n) mod 256, 255)`, the blue channel wrapping in `uint8`
arithmetic: `155` at `n = 0`, `130` at `n = 1`, `236` at `n = 7`. -/
theorem C2_escape_colour_wraps :
    (∀ (z : Complex128) (n : Nat), firstEscape z = some n →
      n < 200 ∧
      mandelbrot z = Color.rgba ⟨0, 0, ((155 - 25 * (n : ℤ)) % 256).toNat, 255⟩) ∧
    u8sub 155 (u8mul contrast 0) = 155 ∧
    u8sub 155 (u8mul contrast 1) = 130 ∧
    u8sub 155 (u8mul contrast 7) = 236 := by
  refine ⟨?_, by decide, by decide, by decide⟩
  intro z n h
  refine ⟨firstEscape_lt h, ?_⟩
  rw [mandelbrot_eq, h]
  simp only [u8_blue]

/-- C2 (witness): `z = -1 + 0.375i` stops at pass `n = 7` and is coloured
`RGBA(0, 0, 236, 255)`. -/
theorem C2_escape_colour_wraps_witness :
    firstEscape ⟨F64.fin (-1), F64.fin (3 / 8)⟩ = some 7 ∧
    mandelbrot ⟨F64.fin (-1), F64.fin (3 / 8)⟩ = Color.rgba ⟨0, 0, 236, 255⟩ :=
  ⟨by decide!, (C2_escape_colour_wraps.1 ⟨F64.fin (-1), F64.fin (3 / 8)⟩ 7 (by decide!)).2⟩

/-- C3: for every viewport the image returned by `createFractal` is 940 x 720
with one stored pixel per position, and the colour stored at every `(px, py)`
of the raster is `mandelbrot` of that pixel's own point
`complex(px/940*(maxX-minX)+minX, py/720*(maxY-minY)+minY)`, converted to RGBA
as `img.Set` does; it is opaque, whereas an unwritten pixel would still be the
transparent zero of `image.NewRGBA`. -/
theorem C3_createFractal_pixels (minX maxX minY maxY : F64) :
    (createFractal minX maxX minY maxY).w = 940 ∧
    (createFractal minX maxX minY maxY).h = 720 ∧
    (createFractal minX maxX minY maxY).pix.length = 940 * 720 ∧
    ∀ px py : Nat, px < 940 → py < 720 →
      (createFractal minX maxX minY maxY).RGBAAt px py =
        rgbaModel (mandelbrot
          ⟨mapCoord px 940 minX maxX, mapCoord py 720 minY maxY⟩) ∧
      ((createFractal minX maxX minY maxY).RGBAAt px py).a = 255 := by
  obtain ⟨hw, hh, hl, hat⟩ := createFractal_rows minX maxX minY maxY winHeight le_rfl
  refine ⟨hw, hh, hl, ?_⟩
  intro px py hx hy
  have h := createFractal_RGBAAt minX maxX minY maxY px py hx hy
  refine ⟨h, ?_⟩
  rw [h]
  exact mandelbrot_alpha _

/-- C3 (witness): the last pixel of the default viewport. -/
theorem C3_createFractal_pixels_witness :
    (createFractal (F64.fin (-2)) (F64.fin 2) (F64.fin (-2)) (F64.fin 2)).RGBAAt 939 719 =
      rgbaModel (mandelbrot
        ⟨mapCoord 939 940 (F64.fin (-2)) (F64.fin 2), mapCoord 719 720 (F64.fin (-2)) (F64.fin 2)⟩) :=
  ((C3_createFractal_pixels (F64.fin (-2)) (F64.fin 2) (F64.fin (-2)) (F64.fin 2)).2.2.2
    939 719 (by decide) (by decide)).1

/-- C4 (as amended): for every valid viewport with finite float64 bounds whose
extents `maxX - minX` and `maxY - minY` do not overflow, pixel `(0, 0)` maps to
exactly `(minX, minY)`, and pixel `(939, 719)` maps to a finite point whose
distance below `maxX` (`maxY`) is one pixel-width `(maxX-minX)/940` (one
pixel-height `(maxY-minY)/720`) up to a rounding error of at most
`2^-50 * (|minX| + |maxX|) + 2^-1072` (resp. with `minY`, `maxY`). -/
theorem C4_corner_pixels (a b c d wx wy : ℚ)
    (ha : Representable a) (hb : Representable b) (hc : Representable c) (hd : Representable d)
    (hab : a < b) (hcd : c < d)
    (hwx : F64.sub (F64.fin b) (F64.fin a) = F64.fin wx)
    (hwy : F64.sub (F64.fin d) (F64.fin c) = F64.fin wy) :
    pixelPoint (F64.fin a) (F64.fin b) (F64.fin c) (F64.fin d) 0 0 = ⟨F64.fin a, F64.fin c⟩ ∧
    ∃ x y : ℚ,
      pixelPoint (F64.fin a) (F64.fin b) (F64.fin c) (F64.fin d) 939 719
        = ⟨F64.fin x, F64.fin y⟩ ∧
      |(b - x) - (b - a) / 940| ≤ (|a| + |b|) / 2 ^ 50 + pow2 (-1072) ∧
      |(d - y) - (d - c) / 720| ≤ (|c| + |d|) / 2 ^ 50 + pow2 (-1072) := by
  constructor
  · unfold pixelPoint winWidth winHeight
    rw [mapCoord_zero 940 (by norm_num) (by norm_num) a b wx ha hwx,
      mapCoord_zero 720 (by norm_num) (by norm_num) c d wy hc hwy]
  · obtain ⟨x, hx, hxe⟩ := mapCoord_err 939 940 a b wx _ hab ha hb hwx div_939_940
      (by norm_num) (by norm_num) (by rw [abs_le]; constructor <;> norm_num)
    obtain ⟨y, hy, hye⟩ := mapCoord_err 719 720 c d wy _ hcd hc hd hwy div_719_720
      (by norm_num) (by norm_num) (by rw [abs_le]; constructor <;> norm_num)
    refine ⟨x, y, ?_, ?_, ?_⟩
    · unfold pixelPoint winWidth winHeight
      rw [hx, hy]
    · have h : (b - x) - (b - a) / 940 = -(x - (((939 : ℕ) : ℚ) / ((940 : ℕ) : ℚ) * (b - a) + a)) := by
        push_cast; ring
      rw [h, abs_neg]; exact hxe
    · have h : (d - y) - (d - c) / 720 = -(y - (((719 : ℕ) : ℚ) / ((720 : ℕ) : ℚ) * (d - c) + c)) := by
        push_cast; ring
      rw [h, abs_neg]; exact hye

/-- C4 (witness): on the default viewport `(-2, 2, -2, 2)` pixel `(0, 0)` maps to
`(-2, -2)`. -/
theorem C4_corner_pixels_witness :
    pixelPoint (F64.fin (-2)) (F64.fin 2) (F64.fin (-2)) (F64.fin 2) 0 0
      = ⟨F64.fin (-2), F64.fin (-2)⟩ :=
  (C4_corner_pixels (-2) 2 (-2) 2 4 4
    ⟨-1, 1, by norm_num, by norm_num, by norm_num, by simp [pow2]⟩
    ⟨1, 1, by norm_num, by norm_num, by norm_num, by simp [pow2]⟩
    ⟨-1, 1, by norm_num, by norm_num, by norm_num, by simp [pow2]⟩
    ⟨1, 1, by norm_num, by norm_num, by norm_num, by simp [pow2]⟩
    (by norm_num) (by norm_num) (by decide!) (by decide!)).1

/-- C4 (counterexample): on the default viewport `(-2, 2, -2, 2)` pixel
`(939, 719)` has real part `2247008750251875 / 2^50`, which lies more than one
pixel-width `4/940` below `maxX = 2`, whether the comparison is made exactly or
in float64 (`maxX - x <= (maxX - minX)/940` is false); and on the valid
viewport with `minX = minY = -2^1023`, `maxX = maxY = 2^1023` the extent
overflows and pixel `(0, 0)` maps to `(NaN, NaN)`, not to `(minX, minY)`. -/
theorem C4_counterexample :
    (pixelPoint (F64.fin (-2)) (F64.fin 2) (F64.fin (-2)) (F64.fin 2) 939 719).re
      = F64.fin (2247008750251875 / 1125899906842624) ∧
    ((4 : ℚ) / 940 < 2 - 2247008750251875 / 1125899906842624) ∧
    F64.le (F64.sub (F64.fin 2) (mapCoord 939 940 (F64.fin (-2)) (F64.fin 2)))
      (F64.div (F64.sub (F64.fin 2) (F64.fin (-2))) (F64.ofNat 940)) = false ∧
    F64.lt (F64.fin (-pow2 1023)) (F64.fin (pow2 1023)) = true ∧
    rnd (pow2 1023) = F64.fin (pow2 1023) ∧
    pixelPoint (F64.fin (-pow2 1023)) (F64.fin (pow2 1023))
        (F64.fin (-pow2 1023)) (F64.fin (pow2 1023)) 0 0 = ⟨F64.nan, F64.nan⟩ := by
  refine ⟨by decide!, by norm_num, by decide!, by decide!, by decide!, by decide!⟩

/-- C5 (as amended): in every state reachable from the initial state by keyboard
events, `deviation` is `2.0 * 0.5^r` (positive) while the number `r` of Return
events so far is at most 1075 and `0` from the 1076th on, so `deviation ≥ 0`;
and the viewport passed to the renderer satisfies `minReal <= maxReal` and
`minImag <= maxImag`. -/
theorem C5_reachable_viewport_ordered (ks : List Key) :
    (runKeys NavState.init ks).deviation =
      F64.fin (if ks.count Key.K_RETURN ≤ 1075 then 2 * (1 / 2) ^ ks.count Key.K_RETURN else 0) ∧
    F64.le (F64.fin 0) (runKeys NavState.init ks).deviation = true ∧
    F64.le (runKeys NavState.init ks).viewport.minX
      (runKeys NavState.init ks).viewport.maxX = true ∧
    F64.le (runKeys NavState.init ks).viewport.minY
      (runKeys NavState.init ks).viewport.maxY = true := by
  obtain ⟨_, ⟨d, hd, hd0, _⟩, hx, hy⟩ := navInv_runKeys navInv_init ks
  refine ⟨(deviation_runKeys ks).2, ?_, ?_, ?_⟩
  · rw [hd]
    simp only [F64.le, F64.lt, F64.eq, Bool.or_eq_true, decide_eq_true_eq]
    exact lt_or_eq_of_le hd0
  · simp only [NavState.viewport, hd]; exact le_sub_add hx hd0
  · simp only [NavState.viewport, hd]; exact le_sub_add hy hd0

/-- C5 (counterexample): after 1076 Return events the deviation is `0`, not
positive, and the viewport has `minReal = maxReal`, `minImag = maxImag`.  A
positive deviation does not order the viewport strictly either: after Right and
55 Return events `locationX = 1`, `deviation = 2^-54 > 0`, and both
`locationX - deviation` and `locationX + deviation` round to `1`. -/
theorem C5_counterexample :
    (runKeys NavState.init (List.replicate 1076 Key.K_RETURN)).deviation = F64.fin 0 ∧
    F64.gt (runKeys NavState.init (List.replicate 1076 Key.K_RETURN)).deviation (F64.fin 0)
      = false ∧
    F64.lt (runKeys NavState.init (List.replicate 1076 Key.K_RETURN)).viewport.minX
      (runKeys NavState.init (List.replicate 1076 Key.K_RETURN)).viewport.maxX = false ∧
    F64.lt (runKeys NavState.init (List.replicate 1076 Key.K_RETURN)).viewport.minY
      (runKeys NavState.init (List.replicate 1076 Key.K_RETURN)).viewport.maxY = false ∧
    (runKeys NavState.init (Key.K_RIGHT :: List.replicate 55 Key.K_RETURN)).deviation
      = F64.fin (pow2 (-54)) ∧
    (runKeys NavState.init (Key.K_RIGHT :: List.replicate 55 Key.K_RETURN)).viewport.minX
      = F64.fin 1 ∧
    (runKeys NavState.init (Key.K_RIGHT :: List.replicate 55 Key.K_RETURN)).viewport.maxX
      = F64.fin 1 := by
  refine ⟨?_, ?_, ?_, ?_, by decide!, by decide!, by decide!⟩ <;>
    rw [zoom_state 1076, if_neg (by norm_num)] <;>
    simp [NavState.viewport, F64.sub, F64.neg, F64.add, F64.gt, F64.lt, rnd_zero]

/-- C6 (as amended): `n` Return events from the default state give
`deviation = 2.0 * 0.5^n` for `n ≤ 1075` and `deviation = 0` from `n = 1076`
on; `locationX`, `locationY` and `step` are unchanged. -/
theorem C6_zoom_deviation (n : ℕ) :
    runKeys NavState.init (List.replicate n Key.K_RETURN) =
      ⟨F64.fin 0, F64.fin 0, F64.fin (1 / 2),
        F64.fin (if n ≤ 1075 then 2 * (1 / 2) ^ n else 0)⟩ :=
  zoom_state n

/-- C6 (counterexample): after 1076 Return events the deviation is `0`, which
is not the number `2.0 * 0.5^1076`.  Evaluating the right-hand side in float64
does not rescue the claim: after 1075 events the deviation is `2^-1074`,
whereas `0.5^1075` rounds to `0` and `2.0 * 0` is `0`. -/
theorem C6_counterexample :
    (runKeys NavState.init (List.replicate 1076 Key.K_RETURN)).deviation = F64.fin 0 ∧
    (runKeys NavState.init (List.replicate 1076 Key.K_RETURN)).deviation
      ≠ F64.fin (2 * (1 / 2) ^ 1076) ∧
    (runKeys NavState.init (List.replicate 1075 Key.K_RETURN)).deviation
      = F64.fin (2 * (1 / 2) ^ 1075) ∧
    F64.mul (F64.fin 2) (rnd ((1 / 2) ^ 1075)) = F64.fin 0 ∧
    F64.fin (2 * (1 / 2) ^ 1075) ≠ F64.fin 0 := by
  refine ⟨?_, ?_, ?_, by decide!, by decide!⟩
  · rw [zoom_state 1076, if_neg (by norm_num)]
  · rw [zoom_state 1076, if_neg (by norm_num)]
    intro h
    have h1 : (0 : ℚ) = 2 * (1 / 2) ^ 1076 := F64.fin.inj h
    have h2 : (0 : ℚ) < 2 * (1 / 2) ^ 1076 := by positivity
    exact absurd h1 h2.ne
  · rw [zoom_state 1075, if_pos (by norm_num)]

/-- C7 (as amended): every pan (Up, Down, Left, Right) leaves `deviation` and
`step` unchanged, and leaves the other coordinate unchanged; and a pan followed
by the opposite pan restores the whole state, hence the coordinate, whenever
the first of the two additions is exact, that is when `location + step*deviation`
(for Right then Left, Down then Up) or `location - step*deviation` (for Left
then Right, Up then Down) is itself a float64 number. -/
theorem C7_opposite_pans_restore_when_exact (s : NavState) :
    (∀ k : Key, k ≠ Key.K_RETURN →
        (keyStep s k).deviation = s.deviation ∧ (keyStep s k).step = s.step) ∧
    ((keyStep s Key.K_LEFT).locationY = s.locationY ∧
      (keyStep s Key.K_RIGHT).locationY = s.locationY ∧
      (keyStep s Key.K_UP).locationX = s.locationX ∧
      (keyStep s Key.K_DOWN).locationX = s.locationX) ∧
    (∀ x t : ℚ, s.locationX = F64.fin x → Representable x →
        F64.mul s.step s.deviation = F64.fin t →
        F64.add (F64.fin x) (F64.fin t) = F64.fin (x + t) →
        keyStep (keyStep s Key.K_RIGHT) Key.K_LEFT = s) ∧
    (∀ y t : ℚ, s.locationY = F64.fin y → Representable y →
        F64.mul s.step s.deviation = F64.fin t →
        F64.add (F64.fin y) (F64.fin t) = F64.fin (y + t) →
        keyStep (keyStep s Key.K_DOWN) Key.K_UP = s) ∧
    (∀ x t : ℚ, s.locationX = F64.fin x → Representable x →
        F64.mul s.step s.deviation = F64.fin t →
        F64.sub (F64.fin x) (F64.fin t) = F64.fin (x - t) →
        keyStep (keyStep s Key.K_LEFT) Key.K_RIGHT = s) ∧
    (∀ y t : ℚ, s.locationY = F64.fin y → Representable y →
        F64.mul s.step s.deviation = F64.fin t →
        F64.sub (F64.fin y) (F64.fin t) = F64.fin (y - t) →
        keyStep (keyStep s Key.K_UP) Key.K_DOWN = s) := by
  refine ⟨?_, ⟨rfl, rfl, rfl, rfl⟩, ?_, ?_, ?_, ?_⟩
  · intro k hk
    cases k
    case K_RETURN => exact absurd rfl hk
    all_goals exact ⟨rfl, rfl⟩
  · intro x t hx hxr ht hxe
    obtain ⟨lx, ly, st, dv⟩ := s
    simp only at hx ht
    subst hx
    have hxe1 : rnd (x + t) = F64.fin (x + t) := hxe
    simp only [keyStep, ht, F64.sub, F64.neg, F64.add, hxe1]
    rw [show x + t + -t = x by ring, rnd_of_representable hxr]
  · intro y t hy hyr ht hye
    obtain ⟨lx, ly, st, dv⟩ := s
    simp only at hy ht
    subst hy
    have hye1 : rnd (y + t) = F64.fin (y + t) := hye
    simp only [keyStep, ht, F64.sub, F64.neg, F64.add, hye1]
    rw [show y + t + -t = y by ring, rnd_of_representable hyr]
  · intro x t hx hxr ht hxe
    obtain ⟨lx, ly, st, dv⟩ := s
    simp only at hx ht
    subst hx
    have hxe1 : rnd (x + -t) = F64.fin (x - t) := hxe
    simp only [keyStep, ht, F64.sub, F64.neg, F64.add, hxe1]
    rw [show x - t + t = x by ring, rnd_of_representable hxr]
  · intro y t hy hyr ht hye
    obtain ⟨lx, ly, st, dv⟩ := s
    simp only at hy ht
    subst hy
    have hye1 : rnd (y + -t) = F64.fin (y - t) := hye
    simp only [keyStep, ht, F64.sub, F64.neg, F64.add, hye1]
    rw [show y - t + t = y by ring, rnd_of_representable hyr]

/-- C7 (witness): in the state reached by Right, three times Return, Left, Down
(`locationX = 7/8`, `locationY = 1/8`, `deviation = 1/4`, so a pan moves by
`1/8`) Right then Left and Down then Up both return to that state. -/
theorem C7_opposite_pans_restore_when_exact_witness :
    runKeys NavState.init
        [Key.K_RIGHT, Key.K_RETURN, Key.K_RETURN, Key.K_RETURN, Key.K_LEFT, Key.K_DOWN]
      = ⟨F64.fin (7 / 8), F64.fin (1 / 8), F64.fin (1 / 2), F64.fin (1 / 4)⟩ ∧
    keyStep (keyStep ⟨F64.fin (7 / 8), F64.fin (1 / 8), F64.fin (1 / 2), F64.fin (1 / 4)⟩
        Key.K_RIGHT) Key.K_LEFT
      = ⟨F64.fin (7 / 8), F64.fin (1 / 8), F64.fin (1 / 2), F64.fin (1 / 4)⟩ ∧
    keyStep (keyStep ⟨F64.fin (7 / 8), F64.fin (1 / 8), F64.fin (1 / 2), F64.fin (1 / 4)⟩
        Key.K_DOWN) Key.K_UP
      = ⟨F64.fin (7 / 8), F64.fin (1 / 8), F64.fin (1 / 2), F64.fin (1 / 4)⟩ :=
  ⟨by decide!,
   (C7_opposite_pans_restore_when_exact
      ⟨F64.fin (7 / 8), F64.fin (1 / 8), F64.fin (1 / 2), F64.fin (1 / 4)⟩).2.2.1
      (7 / 8) (1 / 8) rfl
      ⟨7, -3, by norm_num, by norm_num, by norm_num, by rw [pow2_eq]; norm_num⟩
      (by decide!) (by decide!),
   (C7_opposite_pans_restore_when_exact
      ⟨F64.fin (7 / 8), F64.fin (1 / 8), F64.fin (1 / 2), F64.fin (1 / 4)⟩).2.2.2.1
      (1 / 8) (1 / 8) rfl
      ⟨1, -3, by norm_num, by norm_num, by norm_num, by rw [pow2_eq]; norm_num⟩
      (by decide!) (by decide!)⟩

/-- C7 (counterexample): in the state reached by Right, 53 times Return, Left,
Return (`locationX = 1 - 2^-53`, `deviation = 2^-53`), Right then Left leaves
`locationX = 1`: both additions round. -/
theorem C7_counterexample :
    (runKeys NavState.init
        (Key.K_RIGHT :: (List.replicate 53 Key.K_RETURN ++ [Key.K_LEFT, Key.K_RETURN]))).locationX
      = F64.fin (9007199254740991 / 9007199254740992) ∧
    (keyStep (keyStep (runKeys NavState.init
        (Key.K_RIGHT :: (List.replicate 53 Key.K_RETURN ++ [Key.K_LEFT, Key.K_RETURN])))
        Key.K_RIGHT) Key.K_LEFT).locationX = F64.fin 1 := by
  decide!

/-- C8 (as amended): for every complex `z` with float64 components whose
modulus exceeds 2 by at least the rounding margin `re^2 + im^2 ≥ 4 + 2^-47`, or
which has an infinite component, and more generally whenever the magnitude the
program computes, `cmplx.Abs(z)`, exceeds 2, `mandelbrot(z)` escapes on the
first check with counter `n = 0` and returns `RGBA(0, 0, 155, 255)`. -/
theorem C8_escape_on_first_check (z : Complex128)
    (hre : z.re.IsFloat64) (him : z.im.IsFloat64) :
    (∀ a b : ℚ, z.re = F64.fin a → z.im = F64.fin b → 4 + 1 / 2 ^ 47 ≤ a ^ 2 + b ^ 2 →
        firstEscape z = some 0 ∧ mandelbrot z = Color.rgba ⟨0, 0, 155, 255⟩) ∧
    ((∃ s, z.re = F64.inf s) ∨ (∃ s, z.im = F64.inf s) →
        firstEscape z = some 0 ∧ mandelbrot z = Color.rgba ⟨0, 0, 155, 255⟩) ∧
    (F64.gt (Complex128.Abs z) (F64.fin 2) = true →
        firstEscape z = some 0 ∧ mandelbrot z = Color.rgba ⟨0, 0, 155, 255⟩) := by
  refine ⟨?_, ?_, escape_at_zero z hre him⟩
  · intro a b ha hb h
    apply escape_at_zero z hre him
    obtain ⟨re, im⟩ := z
    simp only at ha hb hre him
    subst ha hb
    exact hypot_gt_two a b hre him h
  · intro h
    apply escape_at_zero z hre him
    obtain ⟨re, im⟩ := z
    rcases h with ⟨s, hs⟩ | ⟨s, hs⟩
    · simp only at hs; subst hs; exact hypot_inf_left s im
    · simp only at hs; subst hs; exact hypot_inf_right s re

/-- C8 (witness): `z = 1.5 + 1.5i` has `re^2 + im^2 = 4.5`, neither component
above 2, and is coloured `RGBA(0, 0, 155, 255)`. -/
theorem C8_escape_on_first_check_witness :
    firstEscape ⟨F64.fin (3 / 2), F64.fin (3 / 2)⟩ = some 0 ∧
    mandelbrot ⟨F64.fin (3 / 2), F64.fin (3 / 2)⟩ = Color.rgba ⟨0, 0, 155, 255⟩ :=
  (C8_escape_on_first_check ⟨F64.fin (3 / 2), F64.fin (3 / 2)⟩
    ⟨3, -1, by norm_num, by norm_num, by norm_num, by rw [pow2_eq]; norm_num⟩
    ⟨3, -1, by norm_num, by norm_num, by norm_num, by rw [pow2_eq]; norm_num⟩).1
    (3 / 2) (3 / 2) rfl rfl (by norm_num)

/-- C8 (counterexample): `z = 2 + 2^-27 i` is a pair of float64 numbers with
`|z|^2 = 4 + 2^-54 > 4`, yet `cmplx.Abs(z)` is exactly `2`, the first check
fails, and `mandelbrot z` is `RGBA(0, 0, 130, 255)` (escape at `n = 1`).  The
program reaches such a point: after Right, Right and 31 Return events pixel
`(470, 361)` is `2 + yi` with `y = 6254999482459 / 2^81 > 0` and is coloured
`RGBA(0, 0, 130, 255)`. -/
theorem C8_counterexample :
    rnd (1 / 2 ^ 27) = F64.fin (1 / 2 ^ 27) ∧
    ((4 : ℚ) < 2 ^ 2 + (1 / 2 ^ 27) ^ 2) ∧
    Complex128.Abs ⟨F64.fin 2, F64.fin (1 / 2 ^ 27)⟩ = F64.fin 2 ∧
    firstEscape ⟨F64.fin 2, F64.fin (1 / 2 ^ 27)⟩ = some 1 ∧
    mandelbrot ⟨F64.fin 2, F64.fin (1 / 2 ^ 27)⟩ = Color.rgba ⟨0, 0, 130, 255⟩ ∧
    (runKeys NavState.init
        (Key.K_RIGHT :: Key.K_RIGHT :: List.replicate 31 Key.K_RETURN)).viewport
      = ⟨F64.fin (2147483647 / 1073741824), F64.fin (2147483649 / 1073741824),
          F64.fin (-(1 / 1073741824)), F64.fin (1 / 1073741824)⟩ ∧
    pixelPoint (F64.fin (2147483647 / 1073741824)) (F64.fin (2147483649 / 1073741824))
        (F64.fin (-(1 / 1073741824))) (F64.fin (1 / 1073741824)) 470 361
      = ⟨F64.fin 2, F64.fin (6254999482459 / 2417851639229258349412352)⟩ ∧
    mandelbrot ⟨F64.fin 2, F64.fin (6254999482459 / 2417851639229258349412352)⟩
      = Color.rgba ⟨0, 0, 130, 255⟩ := by
  refine ⟨by decide!, by norm_num, by decide!, by decide!, by decide!, by decide!, by decide!,
    by decide!⟩

/-- C9: the viewport of the first render is `(-2, 2, -2, 2)`; on the 940 x 720
raster pixel `(235, 360)` maps to exactly `-1 + 0i`, none of the 200 tests
succeeds there (Bounded) and the stored pixel is black; the coordinates of every
pixel are at most those of pixel `(939, 719)`, which lie below `2`, so that
pixel is the nearest to `(2, 2)`; it is classified `EscapedAt(0)` and stored as
`RGBA(0, 0, 155, 255)`. -/
theorem C9_default_viewport_pixels :
    NavState.init.viewport = ⟨F64.fin (-2), F64.fin 2, F64.fin (-2), F64.fin 2⟩ ∧
    pixelPoint (F64.fin (-2)) (F64.fin 2) (F64.fin (-2)) (F64.fin 2) 235 360
      = ⟨F64.fin (-1), F64.fin 0⟩ ∧
    firstEscape ⟨F64.fin (-1), F64.fin 0⟩ = none ∧
    (createFractal (F64.fin (-2)) (F64.fin 2) (F64.fin (-2)) (F64.fin 2)).RGBAAt 235 360
      = ⟨0, 0, 0, 255⟩ ∧
    (∀ px : Fin 940, F64.le (mapCoord px 940 (F64.fin (-2)) (F64.fin 2))
        (mapCoord 939 940 (F64.fin (-2)) (F64.fin 2)) = true) ∧
    (∀ py : Fin 720, F64.le (mapCoord py 720 (F64.fin (-2)) (F64.fin 2))
        (mapCoord 719 720 (F64.fin (-2)) (F64.fin 2)) = true) ∧
    F64.lt (mapCoord 939 940 (F64.fin (-2)) (F64.fin 2)) (F64.fin 2) = true ∧
    F64.lt (mapCoord 719 720 (F64.fin (-2)) (F64.fin 2)) (F64.fin 2) = true ∧
    firstEscape (pixelPoint (F64.fin (-2)) (F64.fin 2) (F64.fin (-2)) (F64.fin 2) 939 719)
      = some 0 ∧
    (createFractal (F64.fin (-2)) (F64.fin 2) (F64.fin (-2)) (F64.fin 2)).RGBAAt 939 719
      = ⟨0, 0, 155, 255⟩ := by
  have hv : NavState.init.viewport = ⟨F64.fin (-2), F64.fin 2, F64.fin (-2), F64.fin 2⟩ := by
    decide!
  have hp : pixelPoint (F64.fin (-2)) (F64.fin 2) (F64.fin (-2)) (F64.fin 2) 235 360
      = ⟨F64.fin (-1), F64.fin 0⟩ := by decide!
  have he : firstEscape
      (pixelPoint (F64.fin (-2)) (F64.fin 2) (F64.fin (-2)) (F64.fin 2) 939 719) = some 0 := by
    decide!
  have hx : F64.lt (mapCoord 939 940 (F64.fin (-2)) (F64.fin 2)) (F64.fin 2) = true := by
    decide!
  have hy : F64.lt (mapCoord 719 720 (F64.fin (-2)) (F64.fin 2)) (F64.fin 2) = true := by
    decide!
  refine ⟨hv, hp, firstEscape_neg_one, ?_, ?_, ?_, hx, hy, he, ?_⟩
  · rw [createFractal_RGBAAt _ _ _ _ 235 360 (by decide) (by decide), hp, mandelbrot_eq,
      firstEscape_neg_one]
    rfl
  · intro px
    exact mapCoord_default_mono px 939 940 (by omega) (by norm_num) (by norm_num) (by norm_num)
  · intro py
    exact mapCoord_default_mono py 719 720 (by omega) (by norm_num) (by norm_num) (by norm_num)
  · rw [createFractal_RGBAAt _ _ _ _ 939 719 (by decide) (by decide), mandelbrot_eq, he]
    rfl

/-- C10: for every escape counter `n < 200` the wrapped blue channel
`uint8(155 - 25*n)` is nonzero (among all `uint8` values it vanishes at
`n = 211` only), so a stored pixel is black, `(0, 0, 0)`, exactly when its
point was classified Bounded. -/
theorem C10_black_iff_bounded :
    (∀ n : Fin 200, u8sub 155 (u8mul contrast n) ≠ 0) ∧
    (∀ n : Fin 256, u8sub 155 (u8mul contrast n) = 0 ↔ n.val = 211) ∧
    ∀ z : Complex128,
      ((rgbaModel (mandelbrot z)).r = 0 ∧ (rgbaModel (mandelbrot z)).g = 0 ∧
        (rgbaModel (mandelbrot z)).b = 0) ↔ firstEscape z = none := by
  have hblue : ∀ n : Fin 200, u8sub 155 (u8mul contrast n) ≠ 0 := by decide!
  refine ⟨hblue, by decide!, ?_⟩
  intro z
  rw [mandelbrot_eq]
  cases h : firstEscape z with
  | none => simp [rgbaModel, Color.Black]
  | some n =>
    have hn := firstEscape_lt h
    have := hblue ⟨n, hn⟩
    simp only [rgbaModel]
    constructor
    · rintro ⟨_, _, h3⟩
      exact absurd h3 this
    · intro h4; cases h4

end Mandelb001
